import Mathlib

/-!
Shallow embedding of the `handlemap` crate (files `src/handle.rs`,
`src/sparse.rs`, `src/dense.rs`).

Modelling conventions:
* `u64` / `u32` machine integers become `Nat` with explicit reduction
  `% 2 ^ 32` where the code casts or wraps; `usize` indices become `Nat`.
* The phantom type parameter of `Handle<T>` has no runtime representation
  (the crate's `cast` reinterprets the tag without touching the bits), so
  `Handle` is embedded untyped and `Handle.cast` is the identity.
* A Rust `&mut self` method becomes a function returning the new state.
* A Rust panic (unchecked `Vec` indexing, `expect`, the `u32::MAX`
  capacity overflow) is embedded as the `none` case of an `Option`-valued
  result; `Vec::get`-checked misses stay `none` inside the payload.
* Mutation of a stored value through `get_mut` / `IndexMut` is embedded as
  the explicit state transformer `setValue` (same validation as `get_mut`,
  then a write through the returned reference).
* Iterators are embedded as the full (finite) list of items they yield.
-/

/-- Number of distinct `u32` values; casts to `u32` reduce modulo this. -/
def u32Size : Nat := 2 ^ 32

/-- Largest `u32` value, the crate's fatal capacity ceiling `u32::MAX`. -/
def u32Max : Nat := u32Size - 1

/-- Embedding of `Handle<T>` from `src/handle.rs`: a raw 64-bit id
(`id: u64`), the phantom tag erased. -/
structure Handle where
  id : Nat
deriving DecidableEq, Repr

/-- Embedding of `Handle::from_parts(meta, index)`:
`((meta as u64) << u32::BITS) + index as u64`.  The `% u32Size` on each
argument reflects the `u32` type of the two parameters. -/
def Handle.fromParts (meta index : Nat) : Handle :=
  ⟨(meta % u32Size) * u32Size + index % u32Size⟩

/-- Embedding of `Handle::index`: `self.id as u32` (truncating cast). -/
def Handle.index (h : Handle) : Nat := h.id % u32Size

/-- Embedding of `Handle::uindex`: `self.index() as usize`. -/
def Handle.uindex (h : Handle) : Nat := h.index

/-- Embedding of `Handle::meta`: `(self.id >> u32::BITS) as u32`. -/
def Handle.meta (h : Handle) : Nat := h.id / u32Size % u32Size

/-- Embedding of `Handle::raw`. -/
def Handle.raw (h : Handle) : Nat := h.id

/-- Embedding of `Handle::from_raw`. -/
def Handle.fromRaw (id : Nat) : Handle := ⟨id⟩

/-- Embedding of `Handle::cast`: the bit pattern is unchanged and the
phantom tag is erased in this model, so `cast` is the identity. -/
def Handle.cast (h : Handle) : Handle := h

theorem Handle.fromParts_index (meta index : Nat) :
    (Handle.fromParts meta index).index = index % u32Size := by
  simp only [Handle.fromParts, Handle.index, u32Size]
  omega

theorem Handle.fromParts_meta (meta index : Nat) :
    (Handle.fromParts meta index).meta = meta % u32Size := by
  simp only [Handle.fromParts, Handle.meta, u32Size]
  omega

theorem Handle.fromParts_uindex (meta index : Nat) :
    (Handle.fromParts meta index).uindex = index % u32Size :=
  Handle.fromParts_index meta index

/-- Embedding of `SparseHandleMap<T>` from `src/sparse.rs`:
`values: Vec<(Handle<T>, Option<T>)>` and
`available: VecDeque<usize>` (front = head of the list). -/
structure SparseHandleMap (T : Type) where
  values : List (Handle × Option T)
  available : List Nat
deriving DecidableEq, Repr

/-- Embedding of `SparseHandleMap::new`. -/
def SparseHandleMap.new {T : Type} : SparseHandleMap T := ⟨[], []⟩

/-- Embedding of `SparseHandleMap::len`:
`self.values.len() - self.available.len()` (usize subtraction; in `Nat`
the same truncating subtraction). -/
def SparseHandleMap.len {T : Type} (m : SparseHandleMap T) : Nat :=
  m.values.length - m.available.length

/-- Embedding of `SparseHandleMap::is_empty`. -/
def SparseHandleMap.isEmpty {T : Type} (m : SparseHandleMap T) : Bool :=
  m.len == 0

/-- Embedding of `SparseHandleMap::get`: checked slot lookup at
`handle.uindex()`, then the handle equality staleness check, then the
stored option. -/
def SparseHandleMap.get {T : Type} (m : SparseHandleMap T) (handle : Handle) : Option T :=
  match m.values[handle.uindex]? with
  | none => none
  | some (foundHandle, option) => if handle = foundHandle then option else none

/-- Embedding of `SparseHandleMap::get_mut`: identical validation to
`get`; in this pure model the returned reference is read off as the
stored option. -/
def SparseHandleMap.getMut {T : Type} (m : SparseHandleMap T) (handle : Handle) : Option T :=
  match m.values[handle.uindex]? with
  | none => none
  | some (foundHandle, option) => if handle = foundHandle then option else none

/-- Writing a value through a successful `get_mut` (including the crate's
`IndexMut` sugar `self.link[h] = i`): `none` when `get_mut` would return
`None` (for `IndexMut` that is the `expect` panic). -/
def SparseHandleMap.setValue {T : Type} (m : SparseHandleMap T) (handle : Handle) (v : T) :
    Option (SparseHandleMap T) :=
  match m.values[handle.uindex]? with
  | none => none
  | some (foundHandle, option) =>
    if handle = foundHandle then
      match option with
      | none => none
      | some _ => some ⟨m.values.set handle.uindex (foundHandle, some v), m.available⟩
    else none

/-- Embedding of `SparseHandleMap::insert`.  `none` is the panic case:
either the unchecked `self.values[index]` on a free-list index that is out
of bounds (impossible in a well-formed map), or the `u32::MAX` capacity
overflow. -/
def SparseHandleMap.insert {T : Type} (m : SparseHandleMap T) (value : T) :
    Option (Handle × SparseHandleMap T) :=
  match m.available with
  | index :: rest =>
    match m.values[index]? with
    | none => none
    | some (handle, _) =>
      let handle' := Handle.fromParts ((handle.meta + 1) % u32Size) handle.index
      some (handle', ⟨m.values.set index (handle', some value), rest⟩)
  | [] =>
    let newIndex := m.values.length
    if newIndex ≤ u32Max then
      let handle := Handle.fromParts 0 newIndex
      some (handle, ⟨m.values ++ [(handle, some value)], []⟩)
    else none

/-- Embedding of `SparseHandleMap::remove`: returns the extracted value
(`option.take()`) and the new state.  Every failure path leaves the state
untouched and this function never panics. -/
def SparseHandleMap.remove {T : Type} (m : SparseHandleMap T) (handle : Handle) :
    Option T × SparseHandleMap T :=
  match m.values[handle.uindex]? with
  | none => (none, m)
  | some (foundHandle, option) =>
    if handle = foundHandle then
      match option with
      | none => (none, m)
      | some value =>
        (some value, ⟨m.values.set handle.uindex (foundHandle, none),
                      m.available ++ [handle.uindex]⟩)
    else (none, m)

/-- Embedding of `SparseHandleMap::predict_handle`.  `none` is the panic
case (capacity overflow, or the unchecked `self.values[*index]`). -/
def SparseHandleMap.predictHandle {T : Type} (m : SparseHandleMap T) (count : Nat) :
    Option Handle :=
  match m.available[count]? with
  | some index =>
    match m.values[index]? with
    | none => none
    | some (handle, _) =>
      some (Handle.fromParts ((handle.meta + 1) % u32Size) handle.index)
  | none =>
    let newCount := count - m.available.length
    let newIndex := m.values.length + newCount
    if newIndex ≤ u32Max then some (Handle.fromParts 0 newIndex) else none

/-- Embedding of `SparseHandleMap::predict_next_handle`. -/
def SparseHandleMap.predictNextHandle {T : Type} (m : SparseHandleMap T) : Option Handle :=
  m.predictHandle 0

/-- Items yielded by `SparseHandleMap::iter` (`Iter::next` skips slots
whose option is `None` and yields `(handle, value)` otherwise, in slot
order). -/
def SparseHandleMap.iterList {T : Type} (m : SparseHandleMap T) : List (Handle × T) :=
  m.values.filterMap fun s => s.2.map fun v => (s.1, v)

/-- Items yielded by `SparseHandleMap::handles`. -/
def SparseHandleMap.handlesList {T : Type} (m : SparseHandleMap T) : List Handle :=
  m.values.filterMap fun s => s.2.map fun _ => s.1

/-- Items yielded by `SparseHandleMap::values`. -/
def SparseHandleMap.valuesList {T : Type} (m : SparseHandleMap T) : List T :=
  m.values.filterMap fun s => s.2

/-- Embedding of `Option::expect` as used by the `Index`/`IndexMut`
implementations: a panic becomes `Except.error ()`. -/
def expectValid {α : Type} : Option α → Except Unit α
  | some a => Except.ok a
  | none => Except.error ()

/-- Embedding of `Index<Handle<T>> for SparseHandleMap<T>`:
`self.get(handle).expect("valid handle")`. -/
def SparseHandleMap.indexOp {T : Type} (m : SparseHandleMap T) (handle : Handle) :
    Except Unit T :=
  expectValid (m.get handle)

/-- Embedding of `IndexMut<Handle<T>> for SparseHandleMap<T>`:
`self.get_mut(handle).expect("valid handle")`. -/
def SparseHandleMap.indexMutOp {T : Type} (m : SparseHandleMap T) (handle : Handle) :
    Except Unit T :=
  expectValid (m.getMut handle)

/-- Embedding of `Vec::swap_remove(index)`: removes the element at
`index`, moving the last element into its place; `none` is the
out-of-bounds panic. -/
def swapRemove {α : Type} (l : List α) (index : Nat) : Option (α × List α) :=
  match l[index]?, l.getLast? with
  | some removed, some last => some (removed, (l.set index last).dropLast)
  | _, _ => none

/-- Embedding of `DenseHandleMap<T>` from `src/dense.rs`:
`link: SparseHandleMap<usize>` and `values: Vec<(Handle<T>, T)>`.  The
`cast` calls between `Handle<T>` and `Handle<usize>` are identities in
this model. -/
structure DenseHandleMap (T : Type) where
  link : SparseHandleMap Nat
  values : List (Handle × T)
deriving DecidableEq, Repr

/-- Embedding of `DenseHandleMap::new`. -/
def DenseHandleMap.new {T : Type} : DenseHandleMap T := ⟨SparseHandleMap.new, []⟩

/-- Embedding of `DenseHandleMap::len`: `self.values.len()`. -/
def DenseHandleMap.len {T : Type} (m : DenseHandleMap T) : Nat := m.values.length

/-- Embedding of `DenseHandleMap::is_empty`. -/
def DenseHandleMap.isEmpty {T : Type} (m : DenseHandleMap T) : Bool := m.values.isEmpty

/-- Embedding of `DenseHandleMap::get`: resolve the dense index through
`link.get`, then read `self.values[index].1`.  The unchecked indexing
would panic out of bounds; here that (invariant-excluded) case also
yields `none`. -/
def DenseHandleMap.get {T : Type} (m : DenseHandleMap T) (handle : Handle) : Option T :=
  match m.link.get handle with
  | none => none
  | some index => (m.values[index]?).map Prod.snd

/-- Embedding of `DenseHandleMap::get_mut` (same resolution as `get`). -/
def DenseHandleMap.getMut {T : Type} (m : DenseHandleMap T) (handle : Handle) : Option T :=
  match m.link.getMut handle with
  | none => none
  | some index => (m.values[index]?).map Prod.snd

/-- Writing a value through a successful `DenseHandleMap::get_mut`. -/
def DenseHandleMap.setValue {T : Type} (m : DenseHandleMap T) (handle : Handle) (v : T) :
    Option (DenseHandleMap T) :=
  match m.link.get handle with
  | none => none
  | some index =>
    match m.values[index]? with
    | none => none
    | some (storedHandle, _) => some ⟨m.link, m.values.set index (storedHandle, v)⟩

/-- Embedding of `DenseHandleMap::insert`: push `(handle, value)` where
`handle = self.link.insert(self.values.len())`; `none` is the propagated
capacity-overflow panic. -/
def DenseHandleMap.insert {T : Type} (m : DenseHandleMap T) (value : T) :
    Option (Handle × DenseHandleMap T) :=
  match m.link.insert m.values.length with
  | none => none
  | some (handle, link') => some (handle, ⟨link', m.values ++ [(handle, value)]⟩)

/-- Embedding of `DenseHandleMap::remove`: `link.remove`, then
`swap_remove` on the dense array, then the relink step
`self.link[swapped_handle] = index` when an element was moved into the
vacated position.  The outer `none` is a panic (out-of-bounds
`swap_remove` or a failing relink `expect`); `some (none, m)` is the
recoverable stale-handle miss, which leaves the state unchanged. -/
def DenseHandleMap.remove {T : Type} (m : DenseHandleMap T) (handle : Handle) :
    Option (Option T × DenseHandleMap T) :=
  match m.link.remove handle with
  | (none, _) => some (none, m)
  | (some index, link') =>
    match swapRemove m.values index with
    | none => none
    | some ((_, value), values') =>
      match values'[index]? with
      | none => some (some value, ⟨link', values'⟩)
      | some (swappedHandle, _) =>
        match link'.setValue swappedHandle index with
        | none => none
        | some link'' => some (some value, ⟨link'', values'⟩)

/-- Items yielded by `DenseHandleMap::iter`: the dense array itself. -/
def DenseHandleMap.iterList {T : Type} (m : DenseHandleMap T) : List (Handle × T) :=
  m.values

/-- Items yielded by `DenseHandleMap::handles`. -/
def DenseHandleMap.handlesList {T : Type} (m : DenseHandleMap T) : List Handle :=
  m.values.map Prod.fst

/-- Items yielded by `DenseHandleMap::values`. -/
def DenseHandleMap.valuesList {T : Type} (m : DenseHandleMap T) : List T :=
  m.values.map Prod.snd

/-- Embedding of `Index<Handle<T>> for DenseHandleMap<T>`. -/
def DenseHandleMap.indexOp {T : Type} (m : DenseHandleMap T) (handle : Handle) :
    Except Unit T :=
  expectValid (m.get handle)

/-- Embedding of `IndexMut<Handle<T>> for DenseHandleMap<T>`. -/
def DenseHandleMap.indexMutOp {T : Type} (m : DenseHandleMap T) (handle : Handle) :
    Except Unit T :=
  expectValid (m.getMut handle)

/-! ## Well-formedness invariant of `SparseHandleMap` -/

/-- Number of live (value-carrying) slots. -/
def SparseHandleMap.liveCount {T : Type} (m : SparseHandleMap T) : Nat :=
  m.values.countP fun s => s.2.isSome

/-- Well-formedness of a `SparseHandleMap`: slot `i` stores a handle whose
index is `i`; free-list entries are in-bounds, point at empty slots and
are pairwise distinct; the slot count never exceeds `u32Size`; and the
free-list length plus the live count equals the slot count. -/
def SparseHandleMap.Inv {T : Type} (m : SparseHandleMap T) : Prop :=
  m.values.length ≤ u32Size ∧
  (∀ i, (hi : i < m.values.length) → (m.values[i]).1.uindex = i) ∧
  (∀ j ∈ m.available, j < m.values.length) ∧
  (∀ j ∈ m.available, (m.values[j]?).map (fun s => s.2.isNone) = some true) ∧
  m.available.Nodup ∧
  m.available.length + m.liveCount = m.values.length

theorem List.countP_set_aux {α : Type} (p : α → Bool) (l : List α) (i : Nat) (a : α)
    (hi : i < l.length) :
    (l.set i a).countP p + (if p l[i] then 1 else 0)
      = l.countP p + (if p a then 1 else 0) := by
  induction l generalizing i with
  | nil => simp at hi
  | cons x xs ih =>
    cases i with
    | zero => simp [List.countP_cons]; omega
    | succ n =>
      have hn : n < xs.length := by simpa using hi
      have := ih n hn
      simp only [List.set, List.countP_cons, List.getElem_cons_succ]
      omega

/-! ## Basic characterizations of the sparse operations -/

theorem SparseHandleMap.getMut_eq_get {T : Type} (m : SparseHandleMap T) (h : Handle) :
    m.getMut h = m.get h := rfl

theorem SparseHandleMap.get_eq_some_iff {T : Type} (m : SparseHandleMap T) (h : Handle)
    (v : T) : m.get h = some v ↔ m.values[h.uindex]? = some (h, some v) := by
  unfold SparseHandleMap.get
  cases hs : m.values[h.uindex]? with
  | none => simp
  | some s =>
    obtain ⟨fh, o⟩ := s
    by_cases heq : h = fh
    · subst heq
      simp
    · simp [heq]
      intro h'
      exact absurd h'.symm heq

theorem SparseHandleMap.get_eq_none_of_ne {T : Type} (m : SparseHandleMap T) (h fh : Handle)
    (o : Option T) (hs : m.values[h.uindex]? = some (fh, o)) (hne : h ≠ fh) :
    m.get h = none := by
  unfold SparseHandleMap.get
  simp [hs, hne]

theorem u32Size_pos : 0 < u32Size := by simp [u32Size]

theorem Handle.index_lt (h : Handle) : h.index < u32Size :=
  Nat.mod_lt _ u32Size_pos

theorem Handle.meta_lt (h : Handle) : h.meta < u32Size :=
  Nat.mod_lt _ u32Size_pos

/-- The handle the reuse branch of `insert` (and `predict_handle`)
produces from the stored handle `oh`. -/
def bumpHandle (oh : Handle) : Handle :=
  Handle.fromParts ((oh.meta + 1) % u32Size) oh.index

theorem bumpHandle_uindex (oh : Handle) : (bumpHandle oh).uindex = oh.uindex := by
  rw [bumpHandle, Handle.fromParts_uindex, Nat.mod_eq_of_lt oh.index_lt]
  rfl

theorem bumpHandle_meta (oh : Handle) : (bumpHandle oh).meta = (oh.meta + 1) % u32Size := by
  rw [bumpHandle, Handle.fromParts_meta, Nat.mod_mod]

theorem bumpHandle_ne (oh : Handle) : bumpHandle oh ≠ oh := by
  intro he
  have hm : (bumpHandle oh).meta = oh.meta := by rw [he]
  rw [bumpHandle_meta] at hm
  have := oh.meta_lt
  revert hm this
  simp only [u32Size]
  omega

theorem SparseHandleMap.insert_reuse_eq {T : Type} (m : SparseHandleMap T) (v : T)
    {j : Nat} {rest : List Nat} {oh : Handle} {oo : Option T}
    (ha : m.available = j :: rest) (hj : m.values[j]? = some (oh, oo)) :
    m.insert v = some (bumpHandle oh, ⟨m.values.set j (bumpHandle oh, some v), rest⟩) := by
  simp only [SparseHandleMap.insert, ha, hj, bumpHandle]

theorem SparseHandleMap.insert_append_eq {T : Type} (m : SparseHandleMap T) (v : T)
    (ha : m.available = []) (hle : m.values.length ≤ u32Max) :
    m.insert v = some (Handle.fromParts 0 m.values.length,
      ⟨m.values ++ [(Handle.fromParts 0 m.values.length, some v)], []⟩) := by
  simp only [SparseHandleMap.insert, ha, hle, if_true]

/-- Bundle of facts about a successful `insert` on a well-formed map: the
new state is well-formed, the returned handle was stale before and now
resolves to the inserted value, every other handle is unaffected, and the
live count grows by one. -/
theorem SparseHandleMap.insert_spec {T : Type} {m : SparseHandleMap T} {v : T}
    {h : Handle} {m' : SparseHandleMap T} (hInv : m.Inv)
    (hins : m.insert v = some (h, m')) :
    m'.Inv ∧ m.get h = none ∧ m'.get h = some v ∧
    (∀ h', h' ≠ h → m'.get h' = m.get h') ∧ m'.len = m.len + 1 := by
  obtain ⟨hlen, hidx, hbound, hempty, hnodup, hcount⟩ := hInv
  cases ha : m.available with
  | cons j rest =>
    have hjmem : j ∈ m.available := by rw [ha]; exact List.mem_cons_self _ _
    have hjlt : j < m.values.length := hbound j hjmem
    obtain ⟨oh, oo, hj⟩ : ∃ oh oo, m.values[j]? = some (oh, oo) :=
      ⟨(m.values[j]).1, (m.values[j]).2, by
        rw [List.getElem?_eq_getElem hjlt]⟩
    have hoo : oo = none := by
      have := hempty j hjmem
      rw [hj] at this
      simpa using this
    subst hoo
    have hjv : m.values[j] = (oh, none) := by
      have := List.getElem?_eq_some.mp hj
      exact this.choose_spec
    have hohidx : oh.uindex = j := by
      have := hidx j hjlt
      rw [hjv] at this
      exact this
    rw [SparseHandleMap.insert_reuse_eq m v ha hj] at hins
    simp only [Option.some.injEq, Prod.mk.injEq] at hins
    obtain ⟨rfl, rfl⟩ := hins
    have hbidx : (bumpHandle oh).uindex = j := by rw [bumpHandle_uindex, hohidx]
    have hbne : bumpHandle oh ≠ oh := bumpHandle_ne oh
    have hnodupr : rest.Nodup ∧ j ∉ rest := by
      rw [ha] at hnodup
      exact ⟨hnodup.of_cons, (List.nodup_cons.mp hnodup).1⟩
    refine ⟨?_, ?_, ?_, ?_, ?_⟩
    · refine ⟨by simpa using hlen, ?_, ?_, ?_, hnodupr.1, ?_⟩
      · intro i hi
        simp only [List.length_set] at hi
        by_cases hij : i = j
        · subst hij
          rw [List.getElem_set_self (by simpa using hi)]
          exact hbidx
        · rw [List.getElem_set_ne (fun he => hij he.symm) (by simpa using hi)]
          exact hidx i (by simpa using hi)
      · intro k hk
        have : k ∈ m.available := by rw [ha]; exact List.mem_cons_of_mem _ hk
        simpa using hbound k this
      · intro k hk
        have hkj : k ≠ j := fun he => hnodupr.2 (he ▸ hk)
        have : k ∈ m.available := by rw [ha]; exact List.mem_cons_of_mem _ hk
        have := hempty k this
        rwa [List.getElem?_set_ne (fun he => hkj he.symm)]
      · have hset := List.countP_set_aux (fun s : Handle × Option T => s.2.isSome)
          m.values j (bumpHandle oh, some v) hjlt
        rw [hjv] at hset
        simp only [Option.isSome_none, Option.isSome_some, Bool.false_eq_true, if_false,
          if_true] at hset
        rw [ha] at hcount
        simp only [SparseHandleMap.liveCount, List.length_cons] at hcount ⊢
        simp only [List.length_set]
        omega
    · exact SparseHandleMap.get_eq_none_of_ne m _ oh none (hbidx ▸ hj) hbne
    · exact (SparseHandleMap.get_eq_some_iff _ _ _).mpr (by
        show (m.values.set j (bumpHandle oh, some v))[(bumpHandle oh).uindex]? = _
        rw [hbidx, List.getElem?_set_self hjlt])
    · intro h' hne
      by_cases hji : h'.uindex = j
      · have hget : m.get h' = none := by
          unfold SparseHandleMap.get
          rw [hji, hj]
          by_cases he : h' = oh <;> simp [he]
        have hget' : (SparseHandleMap.mk (m.values.set j (bumpHandle oh, some v)) rest).get h'
            = none := by
          unfold SparseHandleMap.get
          show (match (m.values.set j (bumpHandle oh, some v))[h'.uindex]? with
            | none => none
            | some (foundHandle, option) => if h' = foundHandle then option else none) = none
          rw [hji, List.getElem?_set_self hjlt]
          simp [hne]
        rw [hget, hget']
      · unfold SparseHandleMap.get
        show (match (m.values.set j (bumpHandle oh, some v))[h'.uindex]? with
          | none => none
          | some (foundHandle, option) => if h' = foundHandle then option else none) = _
        rw [List.getElem?_set_ne (fun he => hji he.symm)]
    · have hrl : rest.length + 1 ≤ m.values.length := by
        rw [ha] at hcount
        simp only [List.length_cons] at hcount
        omega
      simp only [SparseHandleMap.len, List.length_set]
      rw [ha]
      simp only [List.length_cons]
      omega
  | nil =>
    rw [SparseHandleMap.insert] at hins
    rw [ha] at hins
    by_cases hle : m.values.length ≤ u32Max
    · simp only [hle, if_true, Option.some.injEq, Prod.mk.injEq] at hins
      obtain ⟨rfl, rfl⟩ := hins
      have hlenS : m.values.length < u32Size := by
        revert hle
        simp only [u32Max, u32Size]
        omega
      have hhidx : (Handle.fromParts 0 m.values.length).uindex = m.values.length := by
        rw [Handle.fromParts_uindex, Nat.mod_eq_of_lt hlenS]
      refine ⟨?_, ?_, ?_, ?_, ?_⟩
      · refine ⟨by simp; omega, ?_, ?_, ?_, List.nodup_nil, ?_⟩
        · intro i hi
          simp only [List.length_append, List.length_cons, List.length_nil] at hi
          by_cases hilt : i < m.values.length
          · rw [List.getElem_append_left hilt]
            exact hidx i hilt
          · have hieq : i = m.values.length := by omega
            subst hieq
            rw [List.getElem_concat_length _ _ _ rfl]
            exact hhidx
        · intro k hk
          exact absurd hk (List.not_mem_nil k)
        · intro k hk
          exact absurd hk (List.not_mem_nil k)
        · simp only [List.length_nil, Nat.zero_add, SparseHandleMap.liveCount,
            List.countP_append, List.length_append, List.length_cons]
          rw [ha] at hcount
          simp only [List.length_nil, Nat.zero_add, SparseHandleMap.liveCount] at hcount
          simp [hcount, List.countP_cons]
      · unfold SparseHandleMap.get
        rw [hhidx, List.getElem?_eq_none_iff.mpr (Nat.le_refl _)]
      · exact (SparseHandleMap.get_eq_some_iff _ _ _).mpr (by
          show (m.values ++ [(Handle.fromParts 0 m.values.length, some v)])[
            (Handle.fromParts 0 m.values.length).uindex]? = _
          rw [hhidx, List.getElem?_concat_length])
      · intro h' hne
        by_cases hji : h'.uindex < m.values.length
        · unfold SparseHandleMap.get
          show (match (m.values ++ [(Handle.fromParts 0 m.values.length, some v)])[h'.uindex]? with
            | none => none
            | some (foundHandle, option) => if h' = foundHandle then option else none) = _
          rw [List.getElem?_append_left hji]
        · have hgn : m.get h' = none := by
            unfold SparseHandleMap.get
            rw [List.getElem?_eq_none_iff.mpr (by omega)]
          rw [hgn]
          unfold SparseHandleMap.get
          by_cases hji' : h'.uindex = m.values.length
          · show (match (m.values ++ [(Handle.fromParts 0 m.values.length, some v)])[h'.uindex]? with
              | none => none
              | some (foundHandle, option) => if h' = foundHandle then option else none) = none
            rw [hji', List.getElem?_concat_length]
            simp [hne]
          · show (match (m.values ++ [(Handle.fromParts 0 m.values.length, some v)])[h'.uindex]? with
              | none => none
              | some (foundHandle, option) => if h' = foundHandle then option else none) = none
            rw [List.getElem?_eq_none_iff.mpr (by simp; omega)]
      · simp [SparseHandleMap.len, ha]
    · simp [hle] at hins

/-- The value returned by `remove` is exactly what `get` returns. -/
theorem SparseHandleMap.remove_fst_eq_get {T : Type} (m : SparseHandleMap T) (h : Handle) :
    (m.remove h).1 = m.get h := by
  unfold SparseHandleMap.remove SparseHandleMap.get
  cases hs : m.values[h.uindex]? with
  | none => rfl
  | some s =>
    obtain ⟨fh, o⟩ := s
    by_cases he : h = fh
    · cases o <;> simp [he]
    · simp [he]

/-- A failed `remove` leaves the map untouched. -/
theorem SparseHandleMap.remove_miss_eq {T : Type} (m : SparseHandleMap T) (h : Handle)
    (hmiss : (m.remove h).1 = none) : (m.remove h).2 = m := by
  unfold SparseHandleMap.remove at hmiss ⊢
  cases hs : m.values[h.uindex]? with
  | none => rfl
  | some s =>
    obtain ⟨fh, o⟩ := s
    rw [hs] at hmiss
    by_cases he : h = fh
    · cases o with
      | none => simp [he]
      | some w => simp [he] at hmiss
    · simp [he]

/-- The state produced by a successful `remove`: the slot keeps its
handle and loses its value, and the slot index goes to the back of the
free list. -/
theorem SparseHandleMap.remove_hit_eq {T : Type} (m : SparseHandleMap T) (h : Handle)
    (v : T) (hget : m.get h = some v) :
    m.remove h = (some v, ⟨m.values.set h.uindex (h, none), m.available ++ [h.uindex]⟩) := by
  have hs := (SparseHandleMap.get_eq_some_iff m h v).mp hget
  unfold SparseHandleMap.remove
  rw [hs]
  simp

/-- After a successful `remove`, the removed handle no longer resolves. -/
theorem SparseHandleMap.get_remove_self {T : Type} (m : SparseHandleMap T) (h : Handle)
    (v : T) (hget : m.get h = some v) : (m.remove h).2.get h = none := by
  have hs := (SparseHandleMap.get_eq_some_iff m h v).mp hget
  have hlt : h.uindex < m.values.length := by
    have := List.getElem?_eq_some.mp hs
    exact this.choose
  rw [SparseHandleMap.remove_hit_eq m h v hget]
  unfold SparseHandleMap.get
  show (match (m.values.set h.uindex (h, none))[h.uindex]? with
    | none => none
    | some (foundHandle, option) => if h = foundHandle then option else none) = none
  rw [List.getElem?_set_self hlt]
  simp

/-- `remove h` never changes what any other handle resolves to. -/
theorem SparseHandleMap.get_remove_other {T : Type} (m : SparseHandleMap T) (h h' : Handle)
    (hne : h' ≠ h) : (m.remove h).2.get h' = m.get h' := by
  cases hr : (m.remove h).1 with
  | none => rw [SparseHandleMap.remove_miss_eq m h hr]
  | some v =>
    have hget : m.get h = some v := by rw [← SparseHandleMap.remove_fst_eq_get, hr]
    have hs := (SparseHandleMap.get_eq_some_iff m h v).mp hget
    rw [SparseHandleMap.remove_hit_eq m h v hget]
    by_cases hji : h'.uindex = h.uindex
    · have hlt : h.uindex < m.values.length := (List.getElem?_eq_some.mp hs).choose
      have hg1 : m.get h' = none := by
        unfold SparseHandleMap.get
        rw [hji, hs]
        simp [hne]
      rw [hg1]
      unfold SparseHandleMap.get
      show (match (m.values.set h.uindex (h, none))[h'.uindex]? with
        | none => none
        | some (foundHandle, option) => if h' = foundHandle then option else none) = none
      rw [hji, List.getElem?_set_self hlt]
      simp [hne]
    · unfold SparseHandleMap.get
      show (match (m.values.set h.uindex (h, none))[h'.uindex]? with
        | none => none
        | some (foundHandle, option) => if h' = foundHandle then option else none) = _
      rw [List.getElem?_set_ne (fun he => hji he.symm)]

/-- Bundle of facts about a successful `remove` on a well-formed map. -/
theorem SparseHandleMap.remove_spec {T : Type} {m : SparseHandleMap T} {h : Handle}
    {v : T} {m' : SparseHandleMap T} (hInv : m.Inv)
    (hrem : m.remove h = (some v, m')) :
    m'.Inv ∧ m.get h = some v ∧ m'.get h = none ∧
    (∀ h', h' ≠ h → m'.get h' = m.get h') ∧ m'.len + 1 = m.len := by
  have hget : m.get h = some v := by rw [← SparseHandleMap.remove_fst_eq_get, hrem]
  have hs := (SparseHandleMap.get_eq_some_iff m h v).mp hget
  obtain ⟨hlt, hjv⟩ := List.getElem?_eq_some.mp hs
  have hm' : m' = ⟨m.values.set h.uindex (h, none), m.available ++ [h.uindex]⟩ := by
    have := SparseHandleMap.remove_hit_eq m h v hget
    rw [hrem] at this
    exact (Prod.mk.injEq _ _ _ _ ▸ this).2
  obtain ⟨hlen, hidx, hbound, hempty, hnodup, hcount⟩ := hInv
  have hnotmem : h.uindex ∉ m.available := by
    intro hmem
    have := hempty _ hmem
    rw [hs] at this
    simp at this
  subst hm'
  refine ⟨?_, hget, ?_, ?_, ?_⟩
  · refine ⟨by simpa using hlen, ?_, ?_, ?_, ?_, ?_⟩
    · intro i hi
      simp only [List.length_set] at hi
      by_cases hij : i = h.uindex
      · subst hij
        rw [List.getElem_set_self (by simpa using hi)]
      · rw [List.getElem_set_ne (fun he => hij he.symm) (by simpa using hi)]
        exact hidx i (by simpa using hi)
    · intro k hk
      simp only [List.length_set]
      rcases List.mem_append.mp hk with hk | hk
      · exact hbound k hk
      · simp only [List.mem_singleton] at hk
        subst hk
        exact hlt
    · intro k hk
      rcases List.mem_append.mp hk with hk | hk
      · have hkj : k ≠ h.uindex := fun he => hnotmem (he ▸ hk)
        have := hempty k hk
        rwa [List.getElem?_set_ne (fun he => hkj he.symm)]
      · simp only [List.mem_singleton] at hk
        subst hk
        rw [List.getElem?_set_self hlt]
        simp
    · rw [List.nodup_append]
      refine ⟨hnodup, List.nodup_singleton _, ?_⟩
      intro a ha hb
      simp only [List.mem_singleton] at hb
      exact hnotmem (hb ▸ ha)
    · have hset := List.countP_set_aux (fun s : Handle × Option T => s.2.isSome)
        m.values h.uindex (h, none) hlt
      rw [hjv] at hset
      simp only [Option.isSome_some, Option.isSome_none, Bool.false_eq_true, if_true,
        if_false] at hset
      simp only [SparseHandleMap.liveCount, List.length_append, List.length_set,
        List.length_cons, List.length_nil] at hcount ⊢
      omega
  · have hgrs := SparseHandleMap.get_remove_self m h v hget
    rw [hrem] at hgrs
    exact hgrs
  · intro h' hne
    have hgro := SparseHandleMap.get_remove_other m h h' hne
    rw [hrem] at hgro
    exact hgro
  · have hset : m.liveCount ≥ 1 := by
      have : (h, some v) ∈ m.values := by
        rw [← hjv]
        exact List.getElem_mem _
      have hpos : 0 < m.values.countP (fun s : Handle × Option T => s.2.isSome) :=
        List.countP_pos_iff.mpr ⟨(h, some v), this, by simp⟩
      simpa [SparseHandleMap.liveCount] using hpos
    simp only [SparseHandleMap.len, List.length_set, List.length_append,
      List.length_cons, List.length_nil]
    simp only [SparseHandleMap.liveCount] at hset hcount
    omega

/-- Bundle of facts about a successful value write through `get_mut`:
only the addressed value changes, and well-formedness is preserved. -/
theorem SparseHandleMap.setValue_spec {T : Type} {m : SparseHandleMap T} {h : Handle}
    {v : T} {m' : SparseHandleMap T} (hsv : m.setValue h v = some m') :
    m'.get h = some v ∧ (∀ h', h' ≠ h → m'.get h' = m.get h') ∧
    m'.available = m.available ∧ m'.values.length = m.values.length ∧
    (∃ w, m.get h = some w) ∧ (m.Inv → m'.Inv) := by
  unfold SparseHandleMap.setValue at hsv
  rcases hs : m.values[h.uindex]? with _ | ⟨fh, o⟩
  · rw [hs] at hsv
    exact absurd hsv (by simp)
  rw [hs] at hsv
  by_cases he : h = fh
  case neg =>
    simp only [if_neg he] at hsv
    exact absurd hsv (by simp)
  subst he
  rcases o with _ | w
  · simp at hsv
  simp only [if_pos rfl, reduceIte, Option.some.injEq] at hsv
  subst hsv
  obtain ⟨hlt, hjv⟩ := List.getElem?_eq_some.mp hs
  have hget : m.get h = some w := (SparseHandleMap.get_eq_some_iff m h w).mpr hs
  refine ⟨?_, ?_, rfl, by simp, ⟨w, hget⟩, ?_⟩
  · exact (SparseHandleMap.get_eq_some_iff _ _ _).mpr (by
      show (m.values.set h.uindex (h, some v))[h.uindex]? = _
      rw [List.getElem?_set_self hlt])
  · intro h' hne
    unfold SparseHandleMap.get
    show (match (m.values.set h.uindex (h, some v))[h'.uindex]? with
      | none => none
      | some (foundHandle, option) => if h' = foundHandle then option else none) = _
    by_cases hji : h'.uindex = h.uindex
    · rw [hji, List.getElem?_set_self hlt, hs]
      simp [hne]
    · rw [List.getElem?_set_ne (fun hee => hji hee.symm)]
  · rintro ⟨hlen, hidx, hbound, hempty, hnodup, hcount⟩
    have hnotmem : h.uindex ∉ m.available := by
      intro hmem
      have := hempty _ hmem
      rw [hs] at this
      simp at this
    refine ⟨by simpa using hlen, ?_, ?_, ?_, hnodup, ?_⟩
    · intro i hi
      simp only [List.length_set] at hi
      by_cases hij : i = h.uindex
      · subst hij
        rw [List.getElem_set_self (by simpa using hi)]
      · rw [List.getElem_set_ne (fun hee => hij hee.symm) (by simpa using hi)]
        exact hidx i (by simpa using hi)
    · intro k hk
      simpa using hbound k hk
    · intro k hk
      have hkj : k ≠ h.uindex := fun hee => hnotmem (hee ▸ hk)
      have := hempty k hk
      rwa [List.getElem?_set_ne (fun hee => hkj hee.symm)]
    · have hset := List.countP_set_aux (fun s : Handle × Option T => s.2.isSome)
        m.values h.uindex (h, some v) hlt
      rw [hjv] at hset
      simp only [Option.isSome_some, if_true] at hset
      simp only [SparseHandleMap.liveCount, List.length_set] at hcount ⊢
      omega

theorem SparseHandleMap.inv_new {T : Type} : (SparseHandleMap.new : SparseHandleMap T).Inv :=
  ⟨by simp [SparseHandleMap.new, u32Size],
   fun i hi => absurd hi (by simp [SparseHandleMap.new]),
   fun j hj => absurd hj (by simp [SparseHandleMap.new]),
   fun j hj => absurd hj (by simp [SparseHandleMap.new]),
   by simp [SparseHandleMap.new],
   by simp [SparseHandleMap.new, SparseHandleMap.liveCount]⟩

/-- States reachable from `SparseHandleMap::new` by the public mutating
API, together with the number of `insert` calls and of successful
`remove` calls performed (`get` and the iterators do not mutate;
`modify` is a value write through `get_mut` / `IndexMut`). -/
inductive SparseHandleMap.Reach {T : Type} : SparseHandleMap T → Nat → Nat → Prop where
  | new : SparseHandleMap.Reach SparseHandleMap.new 0 0
  | insert {m : SparseHandleMap T} {ins rem : Nat} {v : T} {h : Handle}
      {m' : SparseHandleMap T} : SparseHandleMap.Reach m ins rem →
      m.insert v = some (h, m') → SparseHandleMap.Reach m' (ins + 1) rem
  | removeHit {m : SparseHandleMap T} {ins rem : Nat} {h : Handle} {v : T}
      {m' : SparseHandleMap T} : SparseHandleMap.Reach m ins rem →
      m.remove h = (some v, m') → SparseHandleMap.Reach m' ins (rem + 1)
  | removeMiss {m : SparseHandleMap T} {ins rem : Nat} {h : Handle}
      {m' : SparseHandleMap T} : SparseHandleMap.Reach m ins rem →
      m.remove h = (none, m') → SparseHandleMap.Reach m' ins rem
  | modify {m : SparseHandleMap T} {ins rem : Nat} {h : Handle} {v : T}
      {m' : SparseHandleMap T} : SparseHandleMap.Reach m ins rem →
      m.setValue h v = some m' → SparseHandleMap.Reach m' ins rem

/-- Every reachable sparse map is well-formed and its `len` is the number
of inserts minus the number of successful removes. -/
theorem SparseHandleMap.reach_inv_len {T : Type} {m : SparseHandleMap T} {ins rem : Nat}
    (hr : SparseHandleMap.Reach m ins rem) : m.Inv ∧ m.len + rem = ins := by
  induction hr with
  | new => exact ⟨SparseHandleMap.inv_new, rfl⟩
  | insert hr hins ih =>
    obtain ⟨hInv, hl⟩ := ih
    obtain ⟨hInv', _, _, _, hlen⟩ := SparseHandleMap.insert_spec hInv hins
    exact ⟨hInv', by omega⟩
  | removeHit hr hrem ih =>
    obtain ⟨hInv, hl⟩ := ih
    obtain ⟨hInv', _, _, _, hlen⟩ := SparseHandleMap.remove_spec hInv hrem
    exact ⟨hInv', by omega⟩
  | removeMiss hr hrem ih =>
    have h1 := congrArg Prod.fst hrem
    have h2 := SparseHandleMap.remove_miss_eq _ _ h1
    have h3 := congrArg Prod.snd hrem
    rw [h2] at h3
    simp only at h3
    subst h3
    exact ih
  | modify hr hsv ih =>
    obtain ⟨hInv, hl⟩ := ih
    obtain ⟨_, _, hav, hvl, _, hinv⟩ := SparseHandleMap.setValue_spec hsv
    refine ⟨hinv hInv, ?_⟩
    simp only [SparseHandleMap.len] at hl ⊢
    rw [hav, hvl]
    exact hl

/-! ## `swap_remove` characterization -/

theorem swapRemove_eq {α : Type} (l : List α) (i : Nat) (hi : i < l.length) (last : α)
    (hlast : l.getLast? = some last) :
    swapRemove l i = some (l[i], (l.set i last).dropLast) := by
  unfold swapRemove
  rw [List.getElem?_eq_getElem hi, hlast]

theorem getLast?_isSome_of_lt {α : Type} (l : List α) (i : Nat) (hi : i < l.length) :
    ∃ a, l.getLast? = some a := by
  rw [List.getLast?_eq_getElem?]
  exact ⟨_, List.getElem?_eq_getElem (by omega)⟩

theorem swapRemove_length {α : Type} (l l' : List α) (i : Nat) (r : α)
    (hsw : swapRemove l i = some (r, l')) : l'.length = l.length - 1 := by
  have hi : i < l.length := by
    by_contra hcon
    rw [swapRemove, List.getElem?_eq_none_iff.mpr (by omega)] at hsw
    simp at hsw
  obtain ⟨last, hlast⟩ := getLast?_isSome_of_lt l i hi
  rw [swapRemove_eq l i hi last hlast] at hsw
  simp only [Option.some.injEq, Prod.mk.injEq] at hsw
  rw [← hsw.2]
  simp

theorem swapRemove_getElem?_other {α : Type} (l l' : List α) (i : Nat) (r : α)
    (hsw : swapRemove l i = some (r, l')) (p : Nat) (hp : p ≠ i)
    (hplt : p < l.length - 1) : l'[p]? = l[p]? := by
  have hi : i < l.length := by
    by_contra hcon
    rw [swapRemove, List.getElem?_eq_none_iff.mpr (by omega)] at hsw
    simp at hsw
  obtain ⟨last, hlast⟩ := getLast?_isSome_of_lt l i hi
  rw [swapRemove_eq l i hi last hlast] at hsw
  simp only [Option.some.injEq, Prod.mk.injEq] at hsw
  rw [← hsw.2, List.dropLast_eq_take, List.getElem?_take, List.length_set,
    if_pos hplt, List.getElem?_set_ne (fun he => hp he.symm)]

theorem swapRemove_getElem?_moved {α : Type} (l l' : List α) (i : Nat) (r : α)
    (hsw : swapRemove l i = some (r, l')) (hilt : i < l.length - 1) :
    l'[i]? = l[l.length - 1]? := by
  have hi : i < l.length := by omega
  obtain ⟨last, hlast⟩ := getLast?_isSome_of_lt l i hi
  rw [swapRemove_eq l i hi last hlast] at hsw
  simp only [Option.some.injEq, Prod.mk.injEq] at hsw
  rw [← hsw.2, List.dropLast_eq_take, List.getElem?_take, List.length_set,
    if_pos hilt, List.getElem?_set_self hi, ← List.getLast?_eq_getElem?, hlast]

theorem swapRemove_getElem?_last {α : Type} (l l' : List α) (i : Nat) (r : α)
    (hsw : swapRemove l i = some (r, l')) (p : Nat) (hp : l.length - 1 ≤ p) :
    l'[p]? = none := by
  have hi : i < l.length := by
    by_contra hcon
    rw [swapRemove, List.getElem?_eq_none_iff.mpr (by omega)] at hsw
    simp at hsw
  obtain ⟨last, hlast⟩ := getLast?_isSome_of_lt l i hi
  rw [swapRemove_eq l i hi last hlast] at hsw
  simp only [Option.some.injEq, Prod.mk.injEq] at hsw
  rw [← hsw.2, List.dropLast_eq_take, List.getElem?_take, List.length_set,
    if_neg (by omega)]

theorem swapRemove_removed {α : Type} (l l' : List α) (i : Nat) (r : α)
    (hsw : swapRemove l i = some (r, l')) : l[i]? = some r := by
  have hi : i < l.length := by
    by_contra hcon
    rw [swapRemove, List.getElem?_eq_none_iff.mpr (by omega)] at hsw
    simp at hsw
  obtain ⟨last, hlast⟩ := getLast?_isSome_of_lt l i hi
  rw [swapRemove_eq l i hi last hlast] at hsw
  simp only [Option.some.injEq, Prod.mk.injEq] at hsw
  rw [List.getElem?_eq_getElem hi, hsw.1]

/-! ## Well-formedness invariant of `DenseHandleMap` -/

/-- Well-formedness of a `DenseHandleMap`: the internal sparse map is
well-formed; the dense array holds exactly as many entries as the link
map has live slots; every handle the link map resolves points at a dense
entry carrying that same handle; and every dense entry's handle resolves
back to its own position. -/
def DenseHandleMap.Inv {T : Type} (m : DenseHandleMap T) : Prop :=
  m.link.Inv ∧
  m.values.length = m.link.len ∧
  (∀ h pos, m.link.get h = some pos → (m.values[pos]?).map Prod.fst = some h) ∧
  (∀ p h v, m.values[p]? = some (h, v) → m.link.get h = some p)

theorem DenseHandleMap.dense_inv_new {T : Type} : (DenseHandleMap.new : DenseHandleMap T).Inv := by
  refine ⟨SparseHandleMap.inv_new, by simp [DenseHandleMap.new, SparseHandleMap.new,
    SparseHandleMap.len], ?_, ?_⟩
  · intro h pos hg
    rw [show (DenseHandleMap.new : DenseHandleMap T).link.get h = none from rfl] at hg
    exact absurd hg (by simp)
  · intro p h v hv
    rw [show (DenseHandleMap.new : DenseHandleMap T).values[p]? = none from by
      simp [DenseHandleMap.new]] at hv
    exact absurd hv (by simp)

/-- Bundle of facts about a successful `DenseHandleMap::insert` on a
well-formed map. -/
theorem DenseHandleMap.dense_insert_spec {T : Type} {m : DenseHandleMap T} {v : T}
    {h : Handle} {m' : DenseHandleMap T} (hInv : m.Inv)
    (hins : m.insert v = some (h, m')) :
    m'.Inv ∧ m.get h = none ∧ m'.get h = some v ∧
    (∀ h2, h2 ≠ h → m'.get h2 = m.get h2) ∧ m'.len = m.len + 1 ∧
    m'.values = m.values ++ [(h, v)] := by
  obtain ⟨hLInv, hlen, hfwd, hbwd⟩ := hInv
  unfold DenseHandleMap.insert at hins
  cases hli : m.link.insert m.values.length with
  | none =>
    rw [hli] at hins
    exact absurd hins (by simp)
  | some pr =>
    obtain ⟨hl, link'⟩ := pr
    rw [hli] at hins
    simp only [Option.some.injEq, Prod.mk.injEq] at hins
    obtain ⟨rfl, rfl⟩ := hins
    obtain ⟨hLInv', hgnone, hgself, hgother, hllen⟩ := SparseHandleMap.insert_spec hLInv hli
    refine ⟨⟨hLInv', ?_, ?_, ?_⟩, ?_, ?_, ?_, ?_, rfl⟩
    · simp only [List.length_append, List.length_cons, List.length_nil]
      omega
    · intro h2 pos hg2
      by_cases he : h2 = hl
      · subst he
        rw [hgself] at hg2
        simp only [Option.some.injEq] at hg2
        subst hg2
        rw [List.getElem?_concat_length]
        rfl
      · rw [hgother h2 he] at hg2
        have := hfwd h2 pos hg2
        obtain ⟨s, hsv, hfst⟩ := Option.map_eq_some'.mp this
        have hplt : pos < m.values.length := (List.getElem?_eq_some.mp hsv).choose
        rw [List.getElem?_append_left hplt, hsv]
        simp [hfst]
    · intro p h2 v2 hv2
      by_cases hp : p < m.values.length
      · rw [List.getElem?_append_left hp] at hv2
        have hg2 := hbwd p h2 v2 hv2
        have hne : h2 ≠ hl := by
          intro he
          rw [he, hgnone] at hg2
          exact absurd hg2 (by simp)
        rw [hgother h2 hne]
        exact hg2
      · have hpl : p < m.values.length + 1 := by
          have := (List.getElem?_eq_some.mp hv2).choose
          simpa using this
        have hpe : p = m.values.length := by omega
        subst hpe
        rw [List.getElem?_concat_length] at hv2
        simp only [Option.some.injEq, Prod.mk.injEq] at hv2
        rw [← hv2.1]
        exact hgself
    · simp [DenseHandleMap.get, hgnone]
    · simp [DenseHandleMap.get, hgself, List.getElem?_concat_length]
    · intro h2 hne
      cases hg2 : m.link.get h2 with
      | none => simp [DenseHandleMap.get, hgother h2 hne, hg2]
      | some pos =>
        have := hfwd h2 pos hg2
        obtain ⟨s, hsv, hfst⟩ := Option.map_eq_some'.mp this
        have hplt : pos < m.values.length := (List.getElem?_eq_some.mp hsv).choose
        simp only [DenseHandleMap.get, hgother h2 hne, hg2]
        rw [List.getElem?_append_left hplt]
    · simp [DenseHandleMap.len, SparseHandleMap.len]

/-- A write through `get_mut` succeeds whenever `get` succeeds, and
produces exactly the slot update. -/
theorem SparseHandleMap.setValue_eq_of_get {T : Type} (m : SparseHandleMap T) (h : Handle)
    (w v : T) (hget : m.get h = some w) :
    m.setValue h v = some ⟨m.values.set h.uindex (h, some v), m.available⟩ := by
  have hs := (SparseHandleMap.get_eq_some_iff m h w).mp hget
  unfold SparseHandleMap.setValue
  rw [hs]
  simp


theorem DenseHandleMap.get_eq_none_of_link {T : Type} (m : DenseHandleMap T) (h : Handle)
    (hg : m.link.get h = none) : m.get h = none := by
  unfold DenseHandleMap.get
  rw [hg]

theorem DenseHandleMap.get_eq_of_link {T : Type} (m : DenseHandleMap T) (h : Handle)
    {i : Nat} (hg : m.link.get h = some i) :
    m.get h = (m.values[i]?).map Prod.snd := by
  unfold DenseHandleMap.get
  rw [hg]

/-- Bundle of facts about `DenseHandleMap::remove` on a well-formed map
when the link map resolves the handle: the dense entry at the resolved
position is removed and returned, every other handle still resolves to
its old value, well-formedness is preserved, and if the removed entry was
not last, the previously-last entry now sits at the vacated position with
its link updated to match. -/
theorem DenseHandleMap.dense_remove_spec {T : Type} {m : DenseHandleMap T} {h : Handle}
    {index : Nat} (hInv : m.Inv) (hg : m.link.get h = some index) :
    ∃ v m', m.values[index]? = some (h, v) ∧ m.remove h = some (some v, m') ∧
      m'.Inv ∧ m'.get h = none ∧ (∀ h2, h2 ≠ h → m'.get h2 = m.get h2) ∧
      m'.len + 1 = m.len ∧
      (index + 1 < m.values.length →
        ∃ lastH lastV, m.values[m.values.length - 1]? = some (lastH, lastV) ∧
          m'.values[index]? = some (lastH, lastV) ∧ m'.link.get lastH = some index) := by
  obtain ⟨hLInv, hlen, hfwd, hbwd⟩ := hInv
  obtain ⟨s, hsv0, hfst⟩ := Option.map_eq_some'.mp (hfwd h index hg)
  obtain ⟨v, hsv⟩ : ∃ v, m.values[index]? = some (h, v) :=
    ⟨s.2, by rw [hsv0, ← hfst, Prod.mk.eta]⟩
  have hidxlt : index < m.values.length := (List.getElem?_eq_some.mp hsv).choose
  have hswv : m.values[index] = (h, v) := (List.getElem?_eq_some.mp hsv).choose_spec
  have hlrem := SparseHandleMap.remove_hit_eq m.link h index hg
  set link' : SparseHandleMap Nat := ⟨m.link.values.set h.uindex (h, none),
    m.link.available ++ [h.uindex]⟩ with hlinkdef
  obtain ⟨hLInv', hLget, hLself, hLother, hLlen⟩ := SparseHandleMap.remove_spec hLInv hlrem
  obtain ⟨lastPair, hlastp⟩ := getLast?_isSome_of_lt m.values index hidxlt
  obtain ⟨lastH, lastV⟩ := lastPair
  have hlast : m.values[m.values.length - 1]? = some (lastH, lastV) := by
    rw [← List.getLast?_eq_getElem?]
    exact hlastp
  have hvals := swapRemove_eq m.values index hidxlt (lastH, lastV) hlastp
  set values' : List (Handle × T) := (m.values.set index (lastH, lastV)).dropLast
    with hvaldef
  have hswE : swapRemove m.values index = some ((h, v), values') := by rw [hvals, hswv]
  have hwlen : values'.length = m.values.length - 1 :=
    swapRemove_length m.values values' index (h, v) hswE
  have hinj : ∀ h2 pos, m.link.get h2 = some pos → pos = index → h2 = h := by
    intro h2 pos hg2 hpe
    rw [hpe] at hg2
    have h6 := hfwd h2 index hg2
    rw [hsv] at h6
    have h7 : h = h2 := by simpa using h6
    exact h7.symm
  by_cases hmoved : index + 1 < m.values.length
  case pos =>
    have hlastlink : m.link.get lastH = some (m.values.length - 1) := hbwd _ _ _ hlast
    have hlastne : lastH ≠ h := by
      intro he
      rw [he, hg] at hlastlink
      simp only [Option.some.injEq] at hlastlink
      omega
    have hmove : values'[index]? = some (lastH, lastV) := by
      rw [swapRemove_getElem?_moved m.values values' index (h, v) hswE (by omega), hlast]
    have hlget : link'.get lastH = some (m.values.length - 1) := by
      have h5 := SparseHandleMap.get_remove_other m.link h lastH hlastne
      rw [hlrem] at h5
      exact h5.trans hlastlink
    have hsetv := SparseHandleMap.setValue_eq_of_get link' lastH _ index hlget
    set link'' : SparseHandleMap Nat := ⟨link'.values.set lastH.uindex (lastH, some index),
      link'.available⟩ with hlink2def
    obtain ⟨hSself, hSother, hSav, hSvl, _, hSinv⟩ := SparseHandleMap.setValue_spec hsetv
    have hremE : m.remove h = some (some v, ⟨link'', values'⟩) := by
      unfold DenseHandleMap.remove
      simp only [hlrem, hswE, hmove, hsetv]
    have hL2len : link''.len = link'.len := by
      simp only [SparseHandleMap.len, hSav, hSvl]
    refine ⟨v, ⟨link'', values'⟩, hsv, hremE, ⟨hSinv hLInv', ?_, ?_, ?_⟩, ?_, ?_, ?_, ?_⟩
    · show values'.length = link''.len
      rw [hwlen, hL2len]
      omega
    · intro h2 pos hg2
      change link''.get h2 = some pos at hg2
      show (values'[pos]?).map Prod.fst = some h2
      by_cases he2 : h2 = lastH
      · subst he2
        rw [hSself] at hg2
        simp only [Option.some.injEq] at hg2
        subst hg2
        rw [hmove]
        rfl
      · rw [hSother h2 he2] at hg2
        by_cases he3 : h2 = h
        · subst he3
          rw [hLself] at hg2
          exact absurd hg2 (by simp)
        · have h5 := SparseHandleMap.get_remove_other m.link h h2 he3
          rw [hlrem] at h5
          have hg3 : m.link.get h2 = some pos := by
            rw [← show link'.get h2 = m.link.get h2 from h5]
            exact hg2
          obtain ⟨s2, hs2, hfst2⟩ := Option.map_eq_some'.mp (hfwd h2 pos hg3)
          have hplt : pos < m.values.length := (List.getElem?_eq_some.mp hs2).choose
          have hpne : pos ≠ index := fun he => he3 (hinj h2 pos hg3 he)
          have hpne2 : pos ≠ m.values.length - 1 := by
            intro he
            rw [he, hlast] at hs2
            simp only [Option.some.injEq] at hs2
            rw [← hs2] at hfst2
            exact he2 hfst2.symm
          rw [swapRemove_getElem?_other m.values values' index (h, v) hswE pos hpne
            (by omega), hs2]
          simp [hfst2]
    · intro p h2 v2 hv2
      change values'[p]? = some (h2, v2) at hv2
      show link''.get h2 = some p
      have hplt0 : p < values'.length := (List.getElem?_eq_some.mp hv2).choose
      have hplt : p < m.values.length - 1 := by
        rw [← hwlen]
        exact hplt0
      by_cases hpe : p = index
      · subst hpe
        rw [hmove] at hv2
        simp only [Option.some.injEq, Prod.mk.injEq] at hv2
        rw [← hv2.1]
        exact hSself
      · rw [swapRemove_getElem?_other m.values values' index (h, v) hswE p hpe
          (by omega)] at hv2
        have hold := hbwd p h2 v2 hv2
        have hne3 : h2 ≠ h := by
          intro he
          subst he
          rw [hg] at hold
          simp only [Option.some.injEq] at hold
          exact hpe hold.symm
        have hne2 : h2 ≠ lastH := by
          intro he
          subst he
          rw [hlastlink] at hold
          simp only [Option.some.injEq] at hold
          omega
        rw [hSother h2 hne2]
        have h5 := SparseHandleMap.get_remove_other m.link h h2 hne3
        rw [hlrem] at h5
        rw [show link'.get h2 = m.link.get h2 from h5]
        exact hold
    · refine DenseHandleMap.get_eq_none_of_link ⟨link'', values'⟩ h ?_
      show link''.get h = none
      rw [hSother h (fun he => hlastne he.symm)]
      exact hLself
    · intro h2 hne2
      by_cases he2 : h2 = lastH
      · subst he2
        rw [DenseHandleMap.get_eq_of_link ⟨link'', values'⟩ h2 hSself,
          DenseHandleMap.get_eq_of_link m h2 hlastlink]
        show (values'[index]?).map Prod.snd = _
        rw [hmove, hlast]
      · have hL2 : link''.get h2 = m.link.get h2 := by
          rw [hSother h2 he2]
          have h5 := SparseHandleMap.get_remove_other m.link h h2 hne2
          rw [hlrem] at h5
          exact h5
        cases hg2 : m.link.get h2 with
        | none =>
          rw [DenseHandleMap.get_eq_none_of_link ⟨link'', values'⟩ h2 (hL2.trans hg2),
            DenseHandleMap.get_eq_none_of_link m h2 hg2]
        | some pos =>
          obtain ⟨s2, hs2, hfst2⟩ := Option.map_eq_some'.mp (hfwd h2 pos hg2)
          have hplt : pos < m.values.length := (List.getElem?_eq_some.mp hs2).choose
          have hpne : pos ≠ index := fun he => hne2 (hinj h2 pos hg2 he)
          have hpne2 : pos ≠ m.values.length - 1 := by
            intro he
            rw [he, hlast] at hs2
            simp only [Option.some.injEq] at hs2
            rw [← hs2] at hfst2
            exact he2 hfst2.symm
          rw [DenseHandleMap.get_eq_of_link ⟨link'', values'⟩ h2 (hL2.trans hg2),
            DenseHandleMap.get_eq_of_link m h2 hg2]
          show (values'[pos]?).map Prod.snd = _
          rw [swapRemove_getElem?_other m.values values' index (h, v) hswE pos hpne
            (by omega)]
    · show values'.length + 1 = m.values.length
      omega
    · intro _
      exact ⟨lastH, lastV, hlast, hmove, hSself⟩
  case neg =>
    have hlaste : index = m.values.length - 1 := by omega
    have hnone : values'[index]? = none :=
      swapRemove_getElem?_last m.values values' index (h, v) hswE index (by omega)
    have hremE : m.remove h = some (some v, ⟨link', values'⟩) := by
      unfold DenseHandleMap.remove
      simp only [hlrem, hswE, hnone]
    refine ⟨v, ⟨link', values'⟩, hsv, hremE, ⟨hLInv', ?_, ?_, ?_⟩, ?_, ?_, ?_, ?_⟩
    · show values'.length = link'.len
      rw [hwlen]
      omega
    · intro h2 pos hg2
      change link'.get h2 = some pos at hg2
      show (values'[pos]?).map Prod.fst = some h2
      by_cases he3 : h2 = h
      · subst he3
        rw [hLself] at hg2
        exact absurd hg2 (by simp)
      · have h5 := SparseHandleMap.get_remove_other m.link h h2 he3
        rw [hlrem] at h5
        have hg3 : m.link.get h2 = some pos := by
          rw [← show link'.get h2 = m.link.get h2 from h5]
          exact hg2
        obtain ⟨s2, hs2, hfst2⟩ := Option.map_eq_some'.mp (hfwd h2 pos hg3)
        have hplt : pos < m.values.length := (List.getElem?_eq_some.mp hs2).choose
        have hpne : pos ≠ index := fun he => he3 (hinj h2 pos hg3 he)
        rw [swapRemove_getElem?_other m.values values' index (h, v) hswE pos hpne
          (by omega), hs2]
        simp [hfst2]
    · intro p h2 v2 hv2
      change values'[p]? = some (h2, v2) at hv2
      show link'.get h2 = some p
      have hplt0 : p < values'.length := (List.getElem?_eq_some.mp hv2).choose
      have hplt : p < m.values.length - 1 := by
        rw [← hwlen]
        exact hplt0
      have hpne : p ≠ index := by omega
      rw [swapRemove_getElem?_other m.values values' index (h, v) hswE p hpne
        (by omega)] at hv2
      have hold := hbwd p h2 v2 hv2
      have hne3 : h2 ≠ h := by
        intro he
        subst he
        rw [hg] at hold
        simp only [Option.some.injEq] at hold
        exact hpne hold.symm
      have h5 := SparseHandleMap.get_remove_other m.link h h2 hne3
      rw [hlrem] at h5
      rw [show link'.get h2 = m.link.get h2 from h5]
      exact hold
    · exact DenseHandleMap.get_eq_none_of_link ⟨link', values'⟩ h hLself
    · intro h2 hne2
      have h5 := SparseHandleMap.get_remove_other m.link h h2 hne2
      rw [hlrem] at h5
      have hL2 : link'.get h2 = m.link.get h2 := h5
      cases hg2 : m.link.get h2 with
      | none =>
        rw [DenseHandleMap.get_eq_none_of_link ⟨link', values'⟩ h2 (hL2.trans hg2),
          DenseHandleMap.get_eq_none_of_link m h2 hg2]
      | some pos =>
        obtain ⟨s2, hs2, hfst2⟩ := Option.map_eq_some'.mp (hfwd h2 pos hg2)
        have hplt : pos < m.values.length := (List.getElem?_eq_some.mp hs2).choose
        have hpne : pos ≠ index := fun he => hne2 (hinj h2 pos hg2 he)
        rw [DenseHandleMap.get_eq_of_link ⟨link', values'⟩ h2 (hL2.trans hg2),
          DenseHandleMap.get_eq_of_link m h2 hg2]
        show (values'[pos]?).map Prod.snd = _
        rw [swapRemove_getElem?_other m.values values' index (h, v) hswE pos hpne
          (by omega)]
    · show values'.length + 1 = m.values.length
      omega
    · intro hcon
      exact absurd hcon hmoved

/-- When the link map does not resolve a handle, `DenseHandleMap::remove`
is a recoverable miss that returns the state unchanged. -/
theorem DenseHandleMap.dense_remove_miss_eq {T : Type} (m : DenseHandleMap T) (h : Handle)
    (hg : m.link.get h = none) : m.remove h = some (none, m) := by
  have h1 : (m.link.remove h).1 = none := by
    rw [SparseHandleMap.remove_fst_eq_get, hg]
  have h2 := SparseHandleMap.remove_miss_eq m.link h h1
  have h3 : m.link.remove h = (none, m.link) := by
    rw [Prod.ext_iff]
    exact ⟨h1, h2⟩
  unfold DenseHandleMap.remove
  rw [h3]

theorem DenseHandleMap.remove_hit_inv {T : Type} {m m' : DenseHandleMap T} {h : Handle}
    {v : T} (hInv : m.Inv) (hrem : m.remove h = some (some v, m')) :
    m'.Inv ∧ m'.len + 1 = m.len := by
  cases hg : m.link.get h with
  | none =>
    rw [DenseHandleMap.dense_remove_miss_eq m h hg] at hrem
    simp at hrem
  | some index =>
    obtain ⟨v2, m2, _, hremE, hInv', _, _, hlen2, _⟩ := DenseHandleMap.dense_remove_spec hInv hg
    rw [hremE] at hrem
    simp only [Option.some.injEq, Prod.mk.injEq] at hrem
    obtain ⟨hv2, hm2⟩ := hrem
    subst hm2
    exact ⟨hInv', hlen2⟩

theorem DenseHandleMap.remove_miss_inv {T : Type} {m m' : DenseHandleMap T} {h : Handle}
    (hInv : m.Inv) (hrem : m.remove h = some (none, m')) : m' = m := by
  cases hg : m.link.get h with
  | none =>
    rw [DenseHandleMap.dense_remove_miss_eq m h hg] at hrem
    simp only [Option.some.injEq, Prod.mk.injEq] at hrem
    exact hrem.2.symm
  | some index =>
    obtain ⟨v2, m2, _, hremE, _⟩ := DenseHandleMap.dense_remove_spec hInv hg
    rw [hremE] at hrem
    simp at hrem

/-- Bundle of facts about a successful `DenseHandleMap` value write. -/
theorem DenseHandleMap.dense_setValue_spec {T : Type} {m : DenseHandleMap T} {h : Handle}
    {v : T} {m' : DenseHandleMap T} (hInv : m.Inv) (hsv : m.setValue h v = some m') :
    m'.Inv ∧ m'.get h = some v ∧ (∀ h2, h2 ≠ h → m'.get h2 = m.get h2) ∧
    m'.len = m.len := by
  obtain ⟨hLInv, hlen, hfwd, hbwd⟩ := hInv
  unfold DenseHandleMap.setValue at hsv
  cases hg : m.link.get h with
  | none => simp [hg] at hsv
  | some index =>
    cases hval : m.values[index]? with
    | none => simp [hg, hval] at hsv
    | some s =>
      obtain ⟨sh, w⟩ := s
      simp only [hg, hval, Option.some.injEq] at hsv
      subst hsv
      have hsh : sh = h := by
        have h6 := hfwd h index hg
        rw [hval] at h6
        simpa using h6
      subst hsh
      have hidxlt : index < m.values.length := (List.getElem?_eq_some.mp hval).choose
      have hinj : ∀ h2 pos, m.link.get h2 = some pos → pos = index → h2 = sh := by
        intro h2 pos hg2 hpe
        rw [hpe] at hg2
        have h6 := hfwd h2 index hg2
        rw [hval] at h6
        have h7 : sh = h2 := by simpa using h6
        exact h7.symm
      refine ⟨⟨hLInv, ?_, ?_, ?_⟩, ?_, ?_, ?_⟩
      · show (m.values.set index (sh, v)).length = m.link.len
        simpa using hlen
      · intro h2 pos hg2
        change m.link.get h2 = some pos at hg2
        show ((m.values.set index (sh, v))[pos]?).map Prod.fst = some h2
        by_cases hpe : pos = index
        · subst hpe
          rw [List.getElem?_set_self hidxlt]
          rw [hinj h2 pos hg2 rfl]
          rfl
        · rw [List.getElem?_set_ne (fun he => hpe he.symm)]
          exact hfwd h2 pos hg2
      · intro p h2 v2 hv2
        change (m.values.set index (sh, v))[p]? = some (h2, v2) at hv2
        show m.link.get h2 = some p
        by_cases hpe : p = index
        · subst hpe
          rw [List.getElem?_set_self hidxlt] at hv2
          simp only [Option.some.injEq, Prod.mk.injEq] at hv2
          rw [← hv2.1]
          exact hg
        · rw [List.getElem?_set_ne (fun he => hpe he.symm)] at hv2
          exact hbwd p h2 v2 hv2
      · rw [DenseHandleMap.get_eq_of_link ⟨m.link, m.values.set index (sh, v)⟩ sh hg]
        show ((m.values.set index (sh, v))[index]?).map Prod.snd = some v
        rw [List.getElem?_set_self hidxlt]
        rfl
      · intro h2 hne2
        cases hg2 : m.link.get h2 with
        | none =>
          rw [DenseHandleMap.get_eq_none_of_link ⟨m.link, m.values.set index (sh, v)⟩ h2 hg2,
            DenseHandleMap.get_eq_none_of_link m h2 hg2]
        | some pos =>
          have hpne : pos ≠ index := fun he => hne2 (hinj h2 pos hg2 he)
          rw [DenseHandleMap.get_eq_of_link ⟨m.link, m.values.set index (sh, v)⟩ h2 hg2,
            DenseHandleMap.get_eq_of_link m h2 hg2]
          show ((m.values.set index (sh, v))[pos]?).map Prod.snd = _
          rw [List.getElem?_set_ne (fun he => hpne he.symm)]
      · show (m.values.set index (sh, v)).length = m.values.length
        simp

/-- States reachable from `DenseHandleMap::new` by the public mutating
API, with insert and successful-remove counters. -/
inductive DenseHandleMap.Reach {T : Type} : DenseHandleMap T → Nat → Nat → Prop where
  | new : DenseHandleMap.Reach DenseHandleMap.new 0 0
  | insert {m : DenseHandleMap T} {ins rem : Nat} {v : T} {h : Handle}
      {m' : DenseHandleMap T} : DenseHandleMap.Reach m ins rem →
      m.insert v = some (h, m') → DenseHandleMap.Reach m' (ins + 1) rem
  | removeHit {m : DenseHandleMap T} {ins rem : Nat} {h : Handle} {v : T}
      {m' : DenseHandleMap T} : DenseHandleMap.Reach m ins rem →
      m.remove h = some (some v, m') → DenseHandleMap.Reach m' ins (rem + 1)
  | removeMiss {m : DenseHandleMap T} {ins rem : Nat} {h : Handle}
      {m' : DenseHandleMap T} : DenseHandleMap.Reach m ins rem →
      m.remove h = some (none, m') → DenseHandleMap.Reach m' ins rem
  | modify {m : DenseHandleMap T} {ins rem : Nat} {h : Handle} {v : T}
      {m' : DenseHandleMap T} : DenseHandleMap.Reach m ins rem →
      m.setValue h v = some m' → DenseHandleMap.Reach m' ins rem

/-- Every reachable dense map is well-formed, and its `len` is the number
of inserts minus the number of successful removes. -/
theorem DenseHandleMap.dense_reach_inv_len {T : Type} {m : DenseHandleMap T} {ins rem : Nat}
    (hr : DenseHandleMap.Reach m ins rem) : m.Inv ∧ m.len + rem = ins := by
  induction hr with
  | new => exact ⟨DenseHandleMap.dense_inv_new, rfl⟩
  | insert hr hins ih =>
    obtain ⟨hInv, hl⟩ := ih
    obtain ⟨hInv', _, _, _, hlen, _⟩ := DenseHandleMap.dense_insert_spec hInv hins
    exact ⟨hInv', by omega⟩
  | removeHit hr hrem ih =>
    obtain ⟨hInv, hl⟩ := ih
    obtain ⟨hInv', hlen⟩ := DenseHandleMap.remove_hit_inv hInv hrem
    exact ⟨hInv', by omega⟩
  | removeMiss hr hrem ih =>
    obtain ⟨hInv, hl⟩ := ih
    rw [DenseHandleMap.remove_miss_inv hInv hrem]
    exact ⟨hInv, hl⟩
  | modify hr hsv ih =>
    obtain ⟨hInv, hl⟩ := ih
    obtain ⟨hInv', _, _, hlen⟩ := DenseHandleMap.dense_setValue_spec hInv hsv
    exact ⟨hInv', by omega⟩

/-! ## Prediction lemmas -/

/-- `predict_handle(0)` announces exactly the handle the next `insert`
returns (also when both panic). -/
theorem SparseHandleMap.predict_zero_insert {T : Type} (m : SparseHandleMap T) (v : T) :
    m.predictHandle 0 = (m.insert v).map Prod.fst := by
  unfold SparseHandleMap.predictHandle SparseHandleMap.insert
  cases ha : m.available with
  | nil =>
    simp only [List.getElem?_nil, List.length_nil, Nat.sub_zero, Nat.add_zero]
    by_cases hle : m.values.length ≤ u32Max
    · simp [hle]
    · simp [hle]
  | cons j rest =>
    simp only [List.getElem?_cons_zero]
    cases hj : m.values[j]? with
    | none => simp [hj]
    | some s =>
      obtain ⟨oh, oo⟩ := s
      simp [hj]

/-- One successful `insert` shifts `predict_handle` down by one. -/
theorem SparseHandleMap.predict_succ_insert {T : Type} {m : SparseHandleMap T} {v : T}
    {h : Handle} {m' : SparseHandleMap T} (hInv : m.Inv)
    (hins : m.insert v = some (h, m')) (n : Nat) :
    m.predictHandle (n + 1) = m'.predictHandle n := by
  obtain ⟨hlen, hidx, hbound, hempty, hnodup, hcount⟩ := hInv
  cases ha : m.available with
  | nil =>
    have hle : m.values.length ≤ u32Max := by
      by_contra hcon
      unfold SparseHandleMap.insert at hins
      rw [ha] at hins
      simp [hcon] at hins
    rw [SparseHandleMap.insert_append_eq m v ha hle] at hins
    simp only [Option.some.injEq, Prod.mk.injEq] at hins
    obtain ⟨rfl, rfl⟩ := hins
    unfold SparseHandleMap.predictHandle
    rw [ha]
    simp only [List.getElem?_nil, List.length_nil, Nat.sub_zero, List.length_append,
      List.length_cons]
    have harith : m.values.length + (n + 1) = m.values.length + 1 + n := by omega
    rw [harith]
  | cons j rest =>
    have hjlt : j < m.values.length := hbound j (by rw [ha]; exact List.mem_cons_self _ _)
    obtain ⟨oh, oo, hj⟩ : ∃ oh oo, m.values[j]? = some (oh, oo) :=
      ⟨(m.values[j]).1, (m.values[j]).2, by rw [List.getElem?_eq_getElem hjlt]⟩
    rw [SparseHandleMap.insert_reuse_eq m v ha hj] at hins
    simp only [Option.some.injEq, Prod.mk.injEq] at hins
    obtain ⟨rfl, rfl⟩ := hins
    have hjrest : j ∉ rest := by
      rw [ha] at hnodup
      exact (List.nodup_cons.mp hnodup).1
    unfold SparseHandleMap.predictHandle
    rw [ha]
    simp only [List.getElem?_cons_succ]
    cases hrn : rest[n]? with
    | some idx =>
      have hidxne : j ≠ idx := by
        intro he
        exact hjrest (he ▸ List.getElem?_mem hrn)
      simp only [hrn, List.getElem?_set_ne hidxne]
    | none =>
      have hnge : rest.length ≤ n := by
        by_contra hcon
        rw [List.getElem?_eq_getElem (by omega : n < rest.length)] at hrn
        cases hrn
      simp only [hrn, List.length_cons, List.length_set]
      have harith : m.values.length + (n + 1 - (rest.length + 1))
          = m.values.length + (n - rest.length) := by omega
      rw [harith]

/-- Embedding of a sequence of `insert` calls (no intervening removals);
`none` when some insert panics. -/
def SparseHandleMap.insertSeq {T : Type} (m : SparseHandleMap T) :
    List T → Option (SparseHandleMap T)
  | [] => some m
  | v :: vs =>
    match m.insert v with
    | none => none
    | some (_, m') => m'.insertSeq vs

/-- On a well-formed map, `predict_handle(n)` returns exactly the handle
produced by the `(n+1)`-th following `insert` when no removal intervenes. -/
theorem SparseHandleMap.predict_insertSeq {T : Type} (vs : List T) :
    ∀ m m' : SparseHandleMap T, m.Inv → m.insertSeq vs = some m' →
      ∀ v : T, m.predictHandle vs.length = (m'.insert v).map Prod.fst := by
  induction vs with
  | nil =>
    intro m m' hInv hseq v
    unfold SparseHandleMap.insertSeq at hseq
    simp only [Option.some.injEq] at hseq
    subst hseq
    exact SparseHandleMap.predict_zero_insert m v
  | cons w ws ih =>
    intro m m' hInv hseq v
    unfold SparseHandleMap.insertSeq at hseq
    cases hins : m.insert w with
    | none =>
      rw [hins] at hseq
      cases hseq
    | some pr =>
      obtain ⟨h1, m1⟩ := pr
      rw [hins] at hseq
      rw [List.length_cons, SparseHandleMap.predict_succ_insert hInv hins ws.length]
      exact ih m1 m' (SparseHandleMap.insert_spec hInv hins).1 hseq v

/-! ## Iteration lemmas -/

theorem handles_proj_aux {T : Type} (l : List (Handle × Option T)) :
    (l.filterMap fun s => s.2.map fun _ => s.1)
      = (l.filterMap fun s => s.2.map fun v => (s.1, v)).map Prod.fst := by
  induction l with
  | nil => rfl
  | cons x xs ih =>
    obtain ⟨hx, ox⟩ := x
    cases ox <;> simp [List.filterMap_cons, ih]

theorem values_proj_aux {T : Type} (l : List (Handle × Option T)) :
    (l.filterMap fun s => s.2)
      = (l.filterMap fun s => s.2.map fun v => (s.1, v)).map Prod.snd := by
  induction l with
  | nil => rfl
  | cons x xs ih =>
    obtain ⟨hx, ox⟩ := x
    cases ox <;> simp [List.filterMap_cons, ih]

theorem iter_filter_aux {T : Type} (l : List (Handle × Option T)) :
    ((l.filterMap fun s => s.2.map fun v => (s.1, v)).map fun p => (p.1, some p.2))
      = l.filter fun s => s.2.isSome := by
  induction l with
  | nil => rfl
  | cons x xs ih =>
    obtain ⟨hx, ox⟩ := x
    cases ox <;> simp [List.filterMap_cons, List.filter_cons, ih]

theorem SparseHandleMap.mem_iterList {T : Type} (m : SparseHandleMap T) (h : Handle)
    (v : T) : (h, v) ∈ m.iterList ↔ ∃ i : Nat, m.values[i]? = some (h, some v) := by
  unfold SparseHandleMap.iterList
  rw [List.mem_filterMap]
  constructor
  · rintro ⟨s, hmem, hf⟩
    obtain ⟨sh, so⟩ := s
    cases so with
    | none => simp at hf
    | some w =>
      simp only [Option.map_some', Option.some.injEq, Prod.mk.injEq] at hf
      obtain ⟨hfh, hfv⟩ := hf
      obtain ⟨i, hi⟩ : ∃ i : Nat, m.values[i]? = some (sh, some w) :=
        List.getElem?_of_mem hmem
      exact ⟨i, by rw [hi, hfh, hfv]⟩
  · rintro ⟨i, hi⟩
    exact ⟨(h, some v), List.getElem?_mem hi, rfl⟩

/-! ## Remaining helpers -/

theorem bumpHandle_index (oh : Handle) : (bumpHandle oh).index = oh.index := by
  rw [bumpHandle, Handle.fromParts_index, Nat.mod_eq_of_lt oh.index_lt]

theorem DenseHandleMap.dense_getMut_eq_get {T : Type} (m : DenseHandleMap T) (h : Handle) :
    m.getMut h = m.get h := rfl

theorem DenseHandleMap.link_get_none_of_get_none {T : Type} {m : DenseHandleMap T}
    {h : Handle} (hInv : m.Inv) (hg : m.get h = none) : m.link.get h = none := by
  cases hgl : m.link.get h with
  | none => rfl
  | some pos =>
    obtain ⟨s, hs, hfst⟩ := Option.map_eq_some'.mp (hInv.2.2.1 h pos hgl)
    rw [DenseHandleMap.get_eq_of_link m h hgl, hs] at hg
    simp at hg

/-- On a well-formed map, `insert` panics exactly when a fresh slot would
be needed past the `u32::MAX` index ceiling. -/
theorem SparseHandleMap.insert_none_iff {T : Type} {m : SparseHandleMap T} (hInv : m.Inv)
    (v : T) : m.insert v = none ↔ m.available = [] ∧ u32Max < m.values.length := by
  cases ha : m.available with
  | cons j rest =>
    have hjlt : j < m.values.length :=
      hInv.2.2.1 j (by rw [ha]; exact List.mem_cons_self _ _)
    obtain ⟨oh, oo, hj⟩ : ∃ oh oo, m.values[j]? = some (oh, oo) :=
      ⟨(m.values[j]).1, (m.values[j]).2, by rw [List.getElem?_eq_getElem hjlt]⟩
    rw [SparseHandleMap.insert_reuse_eq m v ha hj]
    simp
  | nil =>
    unfold SparseHandleMap.insert
    rw [ha]
    by_cases hle : m.values.length ≤ u32Max
    · simp [hle]
    · simp only [hle, if_false, reduceIte, true_iff, eq_self_iff_true, true_and]
      omega

theorem expectValid_error_iff {α : Type} (o : Option α) :
    expectValid o = Except.error () ↔ o = none := by
  cases o <;> simp [expectValid]

theorem expectValid_ok_iff {α : Type} (o : Option α) (a : α) :
    expectValid o = Except.ok a ↔ o = some a := by
  cases o <;> simp [expectValid]

/-! ## Concrete example states used by the witnesses -/

/-- Sparse map after inserting `42` into a fresh map. -/
def exSparse1 : SparseHandleMap Nat := ⟨[(⟨0⟩, some 42)], []⟩

/-- Dense map after inserting `7` into a fresh map. -/
def exDense1v : DenseHandleMap Nat := ⟨⟨[(⟨0⟩, some 0)], []⟩, [(⟨0⟩, 7)]⟩

/-- Dense map after inserting `1`, `2`, `3` into a fresh map. -/
def exDense3 : DenseHandleMap Nat :=
  ⟨⟨[(⟨0⟩, some 0), (⟨1⟩, some 1), (⟨2⟩, some 2)], []⟩, [(⟨0⟩, 1), (⟨1⟩, 2), (⟨2⟩, 3)]⟩

theorem exDense3_reach : DenseHandleMap.Reach exDense3 3 0 := by
  have h1 : (DenseHandleMap.new : DenseHandleMap Nat).insert 1
      = some (⟨0⟩, ⟨⟨[(⟨0⟩, some 0)], []⟩, [(⟨0⟩, 1)]⟩) := by decide
  have h2 : (⟨⟨[(⟨0⟩, some 0)], []⟩, [(⟨0⟩, 1)]⟩ : DenseHandleMap Nat).insert 2
      = some (⟨1⟩, ⟨⟨[(⟨0⟩, some 0), (⟨1⟩, some 1)], []⟩, [(⟨0⟩, 1), (⟨1⟩, 2)]⟩) := by
    decide
  have h3 : (⟨⟨[(⟨0⟩, some 0), (⟨1⟩, some 1)], []⟩,
      [(⟨0⟩, 1), (⟨1⟩, 2)]⟩ : DenseHandleMap Nat).insert 3 = some (⟨2⟩, exDense3) := by
    decide
  exact DenseHandleMap.Reach.insert (DenseHandleMap.Reach.insert
    (DenseHandleMap.Reach.insert DenseHandleMap.Reach.new h1) h2) h3

/-! ## Claim theorems -/

/-- C1: on every reachable `DenseHandleMap`, a successful `remove` of an
entry that is not last in the dense array relocates the previously-last
entry into the vacated position and updates that entry's link to point at
its new position, while every other live handle still resolves to its old
value; concretely, after inserting three values and removing the first
handle, the other two still resolve and iteration yields exactly their
two pairs. -/
theorem claim_C1_dense_remove_relink :
    (∀ (T : Type) (m : DenseHandleMap T) (ins rem : Nat) (h : Handle) (index : Nat),
      DenseHandleMap.Reach m ins rem → m.link.get h = some index →
      index + 1 < m.values.length →
      ∃ v m', m.remove h = some (some v, m') ∧
        (∀ h2, h2 ≠ h → m'.get h2 = m.get h2) ∧
        ∃ lastH lastV, m.values[m.values.length - 1]? = some (lastH, lastV) ∧
          m'.values[index]? = some (lastH, lastV) ∧ m'.link.get lastH = some index) ∧
    (∃ ha m1 hb m2 hc m3 r m4,
      (DenseHandleMap.new : DenseHandleMap Nat).insert 1 = some (ha, m1) ∧
      m1.insert 2 = some (hb, m2) ∧ m2.insert 3 = some (hc, m3) ∧
      m3.remove ha = some (r, m4) ∧ r = some 1 ∧
      m4.get hb = some 2 ∧ m4.get hc = some 3 ∧
      m4.iterList = [(hc, 3), (hb, 2)] ∧ ha ≠ hb ∧ ha ≠ hc ∧ hb ≠ hc) := by
  constructor
  · intro T m ins rem h index hr hg hlt
    obtain ⟨hInv, _⟩ := DenseHandleMap.dense_reach_inv_len hr
    obtain ⟨v, m', _, hremE, _, _, hothers, _, hrelink⟩ :=
      DenseHandleMap.dense_remove_spec hInv hg
    obtain ⟨lastH, lastV, h1, h2, h3⟩ := hrelink hlt
    exact ⟨v, m', hremE, hothers, lastH, lastV, h1, h2, h3⟩
  · refine ⟨⟨0⟩, ⟨⟨[(⟨0⟩, some 0)], []⟩, [(⟨0⟩, 1)]⟩, ⟨1⟩,
      ⟨⟨[(⟨0⟩, some 0), (⟨1⟩, some 1)], []⟩, [(⟨0⟩, 1), (⟨1⟩, 2)]⟩, ⟨2⟩, exDense3,
      some 1, ⟨⟨[(⟨0⟩, none), (⟨1⟩, some 1), (⟨2⟩, some 0)], [0]⟩, [(⟨2⟩, 3), (⟨1⟩, 2)]⟩,
      ?_, ?_, ?_, ?_, ?_, ?_, ?_, ?_, ?_, ?_, ?_⟩ <;> decide

/-- C2: every reachable `DenseHandleMap` satisfies the dual-update
invariant: whenever the internal position map resolves a handle, the
resolved dense index is in bounds and the dense entry there is exactly
that handle paired with the value `get` returns; and the dense array
length always equals the position map's live count. -/
theorem claim_C2_dense_invariants :
    ∀ (T : Type) (m : DenseHandleMap T) (ins rem : Nat),
      DenseHandleMap.Reach m ins rem →
      (∀ h pos, m.link.get h = some pos → pos < m.values.length ∧
        ∃ v, m.values[pos]? = some (h, v) ∧ m.get h = some v) ∧
      m.values.length = m.link.len := by
  intro T m ins rem hr
  obtain ⟨⟨hLInv, hlen, hfwd, hbwd⟩, _⟩ := DenseHandleMap.dense_reach_inv_len hr
  refine ⟨?_, hlen⟩
  intro h pos hg
  obtain ⟨s, hs, hfst⟩ := Option.map_eq_some'.mp (hfwd h pos hg)
  refine ⟨(List.getElem?_eq_some.mp hs).choose, s.2, ?_, ?_⟩
  · rw [hs, ← hfst, Prod.mk.eta]
  · rw [DenseHandleMap.get_eq_of_link m h hg, hs]
    rfl

theorem claim_C1_witness :
    DenseHandleMap.Reach exDense3 3 0 ∧ exDense3.link.get ⟨0⟩ = some 0 ∧
    0 + 1 < exDense3.values.length ∧
    (∃ v m', exDense3.remove ⟨0⟩ = some (some v, m') ∧
      (∀ h2, h2 ≠ (⟨0⟩ : Handle) → m'.get h2 = exDense3.get h2) ∧
      ∃ lastH lastV, exDense3.values[exDense3.values.length - 1]? = some (lastH, lastV) ∧
        m'.values[0]? = some (lastH, lastV) ∧ m'.link.get lastH = some 0) :=
  ⟨exDense3_reach, by decide, by decide,
    claim_C1_dense_remove_relink.1 Nat exDense3 3 0 ⟨0⟩ 0 exDense3_reach (by decide)
      (by decide)⟩

theorem claim_C2_witness :
    DenseHandleMap.Reach exDense3 3 0 ∧
    ((∀ h pos, exDense3.link.get h = some pos → pos < exDense3.values.length ∧
      ∃ v, exDense3.values[pos]? = some (h, v) ∧ exDense3.get h = some v) ∧
      exDense3.values.length = exDense3.link.len) :=
  ⟨exDense3_reach, claim_C2_dense_invariants Nat exDense3 3 0 exDense3_reach⟩

/-- C3: `get` (and the identically-validating `get_mut`) returns the
stored value exactly when the slot at the handle's index exists, the
stored handle equals the queried handle bit-for-bit (generation and
index), and the slot's value is present; consequently on a well-formed
map of either kind, a freshly inserted handle immediately resolves to the
inserted value. -/
theorem claim_C3_get_validation :
    (∀ (T : Type) (m : SparseHandleMap T) (h : Handle),
      m.getMut h = m.get h ∧
      (∀ v, m.get h = some v ↔ m.values[h.uindex]? = some (h, some v))) ∧
    (∀ (T : Type) (m : SparseHandleMap T) (v : T) (h : Handle) (m' : SparseHandleMap T),
      m.Inv → m.insert v = some (h, m') → m'.get h = some v ∧ m'.getMut h = some v) ∧
    (∀ (T : Type) (m : DenseHandleMap T) (v : T) (h : Handle) (m' : DenseHandleMap T),
      m.Inv → m.insert v = some (h, m') → m'.get h = some v ∧ m'.getMut h = some v) := by
  refine ⟨?_, ?_, ?_⟩
  · intro T m h
    exact ⟨SparseHandleMap.getMut_eq_get m h,
      fun v => SparseHandleMap.get_eq_some_iff m h v⟩
  · intro T m v h m' hInv hins
    obtain ⟨_, _, hself, _⟩ := SparseHandleMap.insert_spec hInv hins
    exact ⟨hself, by rw [SparseHandleMap.getMut_eq_get]; exact hself⟩
  · intro T m v h m' hInv hins
    obtain ⟨_, _, hself, _⟩ := DenseHandleMap.dense_insert_spec hInv hins
    exact ⟨hself, by rw [DenseHandleMap.dense_getMut_eq_get]; exact hself⟩

theorem claim_C3_witness :
    (SparseHandleMap.Inv (SparseHandleMap.new : SparseHandleMap Nat) ∧
      (SparseHandleMap.new : SparseHandleMap Nat).insert 42 = some (⟨0⟩, exSparse1) ∧
      (exSparse1.get ⟨0⟩ = some 42 ∧ exSparse1.getMut ⟨0⟩ = some 42)) ∧
    (DenseHandleMap.Inv (DenseHandleMap.new : DenseHandleMap Nat) ∧
      (DenseHandleMap.new : DenseHandleMap Nat).insert 7 = some (⟨0⟩, exDense1v) ∧
      (exDense1v.get ⟨0⟩ = some 7 ∧ exDense1v.getMut ⟨0⟩ = some 7)) :=
  ⟨⟨SparseHandleMap.inv_new, by decide,
    claim_C3_get_validation.2.1 Nat SparseHandleMap.new 42 ⟨0⟩ exSparse1
      SparseHandleMap.inv_new (by decide)⟩,
   ⟨DenseHandleMap.dense_inv_new, by decide,
    claim_C3_get_validation.2.2 Nat DenseHandleMap.new 7 ⟨0⟩ exDense1v
      DenseHandleMap.dense_inv_new (by decide)⟩⟩

/-- C4: `remove` validates exactly like `get` and returns exactly what
`get` returns; on success the slot keeps its stored handle (hence its
generation) and loses only its value, and the slot index is appended to
the back of the free list; consequently in both map types a value can be
removed exactly once, after which `get` and a second `remove` find
nothing and the second `remove` does not change the state. -/
theorem claim_C4_remove :
    (∀ (T : Type) (m : SparseHandleMap T) (h : Handle), (m.remove h).1 = m.get h) ∧
    (∀ (T : Type) (m : SparseHandleMap T) (h : Handle) (v : T), m.get h = some v →
      m.remove h = (some v, ⟨m.values.set h.uindex (h, none),
        m.available ++ [h.uindex]⟩)) ∧
    (∀ (T : Type) (m : SparseHandleMap T) (v : T) (h : Handle) (m' : SparseHandleMap T),
      m.Inv → m.insert v = some (h, m') →
      (m'.remove h).1 = some v ∧ (m'.remove h).2.get h = none ∧
      ((m'.remove h).2.remove h).1 = none ∧
      ((m'.remove h).2.remove h).2 = (m'.remove h).2) ∧
    (∀ (T : Type) (m : DenseHandleMap T) (v : T) (h : Handle) (m' : DenseHandleMap T),
      m.Inv → m.insert v = some (h, m') →
      ∃ m2, m'.remove h = some (some v, m2) ∧ m2.get h = none ∧
        m2.remove h = some (none, m2)) := by
  refine ⟨?_, ?_, ?_, ?_⟩
  · intro T m h
    exact SparseHandleMap.remove_fst_eq_get m h
  · intro T m h v hget
    exact SparseHandleMap.remove_hit_eq m h v hget
  · intro T m v h m' hInv hins
    obtain ⟨_, _, hself, _⟩ := SparseHandleMap.insert_spec hInv hins
    have h1 : (m'.remove h).1 = some v := by
      rw [SparseHandleMap.remove_fst_eq_get, hself]
    have h2 : (m'.remove h).2.get h = none := SparseHandleMap.get_remove_self m' h v hself
    have h3 : ((m'.remove h).2.remove h).1 = none := by
      rw [SparseHandleMap.remove_fst_eq_get, h2]
    exact ⟨h1, h2, h3, SparseHandleMap.remove_miss_eq _ h h3⟩
  · intro T m v h m' hInv hins
    obtain ⟨hInv', _, hself, _⟩ := DenseHandleMap.dense_insert_spec hInv hins
    cases hg : m'.link.get h with
    | none =>
      rw [DenseHandleMap.get_eq_none_of_link m' h hg] at hself
      cases hself
    | some index =>
      obtain ⟨v2, m2, hv2, hremE, hInv2, hgnone2, _⟩ := DenseHandleMap.dense_remove_spec hInv' hg
      have hveq : v2 = v := by
        rw [DenseHandleMap.get_eq_of_link m' h hg, hv2] at hself
        simpa using hself
      subst hveq
      exact ⟨m2, hremE, hgnone2,
        DenseHandleMap.dense_remove_miss_eq m2 h
          (DenseHandleMap.link_get_none_of_get_none hInv2 hgnone2)⟩

theorem claim_C4_witness :
    (exSparse1.get ⟨0⟩ = some 42 ∧
      exSparse1.remove ⟨0⟩ = (some 42, ⟨[(⟨0⟩, none)], [0]⟩)) ∧
    (SparseHandleMap.Inv (SparseHandleMap.new : SparseHandleMap Nat) ∧
      (SparseHandleMap.new : SparseHandleMap Nat).insert 42 = some (⟨0⟩, exSparse1) ∧
      ((exSparse1.remove ⟨0⟩).1 = some 42 ∧ (exSparse1.remove ⟨0⟩).2.get ⟨0⟩ = none ∧
        ((exSparse1.remove ⟨0⟩).2.remove ⟨0⟩).1 = none ∧
        ((exSparse1.remove ⟨0⟩).2.remove ⟨0⟩).2 = (exSparse1.remove ⟨0⟩).2)) ∧
    (DenseHandleMap.Inv (DenseHandleMap.new : DenseHandleMap Nat) ∧
      (DenseHandleMap.new : DenseHandleMap Nat).insert 7 = some (⟨0⟩, exDense1v) ∧
      (∃ m2, exDense1v.remove ⟨0⟩ = some (some 7, m2) ∧ m2.get ⟨0⟩ = none ∧
        m2.remove ⟨0⟩ = some (none, m2))) :=
  ⟨⟨by decide, claim_C4_remove.2.1 Nat exSparse1 ⟨0⟩ 42 (by decide)⟩,
   ⟨SparseHandleMap.inv_new, by decide,
    claim_C4_remove.2.2.1 Nat SparseHandleMap.new 42 ⟨0⟩ exSparse1
      SparseHandleMap.inv_new (by decide)⟩,
   ⟨DenseHandleMap.dense_inv_new, by decide,
    claim_C4_remove.2.2.2 Nat DenseHandleMap.new 7 ⟨0⟩ exDense1v
      DenseHandleMap.dense_inv_new (by decide)⟩⟩

instance sparseInvDecidable {T : Type} (m : SparseHandleMap T) : Decidable m.Inv := by
  unfold SparseHandleMap.Inv
  infer_instance

/-- C5: on a well-formed map, `insert` pops the front of the FIFO free
list when one exists, replaces that slot's handle with one whose
generation is the old generation plus one modulo `2^32` at the same
index, stores the value there and returns the new handle (which then
resolves to the value); with an empty free list it appends a fresh
generation-0 slot at the end; and it fails only in the fatal capacity
case where a fresh slot index would exceed `u32::MAX`. -/
theorem claim_C5_sparse_insert :
    ∀ (T : Type) (m : SparseHandleMap T) (v : T), m.Inv →
      (m.insert v = none ↔ m.available = [] ∧ u32Max < m.values.length) ∧
      (∀ j rest, m.available = j :: rest →
        ∃ oh oo, m.values[j]? = some (oh, oo) ∧
          m.insert v = some (bumpHandle oh,
            ⟨m.values.set j (bumpHandle oh, some v), rest⟩) ∧
          (bumpHandle oh).meta = (oh.meta + 1) % u32Size ∧
          (bumpHandle oh).index = oh.index ∧
          (⟨m.values.set j (bumpHandle oh, some v), rest⟩ : SparseHandleMap T).get
            (bumpHandle oh) = some v) ∧
      (m.available = [] → m.values.length ≤ u32Max →
        m.insert v = some (Handle.fromParts 0 m.values.length,
          ⟨m.values ++ [(Handle.fromParts 0 m.values.length, some v)], []⟩) ∧
        (Handle.fromParts 0 m.values.length).meta = 0 ∧
        (Handle.fromParts 0 m.values.length).index = m.values.length) := by
  intro T m v hInv
  refine ⟨SparseHandleMap.insert_none_iff hInv v, ?_, ?_⟩
  · intro j rest ha
    have hjlt : j < m.values.length :=
      hInv.2.2.1 j (by rw [ha]; exact List.mem_cons_self _ _)
    obtain ⟨oh, oo, hj⟩ : ∃ oh oo, m.values[j]? = some (oh, oo) :=
      ⟨(m.values[j]).1, (m.values[j]).2, by rw [List.getElem?_eq_getElem hjlt]⟩
    have hins := SparseHandleMap.insert_reuse_eq m v ha hj
    obtain ⟨_, _, hself, _⟩ := SparseHandleMap.insert_spec hInv hins
    exact ⟨oh, oo, hj, hins, bumpHandle_meta oh, bumpHandle_index oh, hself⟩
  · intro ha hle
    refine ⟨SparseHandleMap.insert_append_eq m v ha hle, ?_, ?_⟩
    · rw [Handle.fromParts_meta, Nat.zero_mod]
    · rw [Handle.fromParts_index, Nat.mod_eq_of_lt]
      revert hle
      simp only [u32Max, u32Size]
      omega

/-- Sparse map with one emptied, reusable slot. -/
def exSparse2 : SparseHandleMap Nat := ⟨[(⟨0⟩, none)], [0]⟩

theorem claim_C5_witness :
    SparseHandleMap.Inv exSparse2 ∧ exSparse2.available = 0 :: [] ∧
    (∃ oh oo, exSparse2.values[0]? = some (oh, oo) ∧
      exSparse2.insert 43 = some (bumpHandle oh,
        ⟨exSparse2.values.set 0 (bumpHandle oh, some 43), []⟩) ∧
      (bumpHandle oh).meta = (oh.meta + 1) % u32Size ∧
      (bumpHandle oh).index = oh.index ∧
      (⟨exSparse2.values.set 0 (bumpHandle oh, some 43), []⟩ : SparseHandleMap Nat).get
        (bumpHandle oh) = some 43) :=
  ⟨by decide, rfl,
    (claim_C5_sparse_insert Nat exSparse2 43 (by decide)).2.1 0 [] rfl⟩

/-- C6: `predict_handle` is a pure function of the state; `predict_next_handle`
is `predict_handle 0`; when the free list has an entry at FIFO position
`n` it predicts that slot's stored handle with the generation bumped by
one, otherwise a generation-0 handle at an index past the current slot
array; and after any run of `n` successful inserts with no removal, the
handle the next `insert` returns is exactly what `predict_handle n`
announced beforehand. -/
theorem claim_C6_predict :
    (∀ (T : Type) (m : SparseHandleMap T), m.predictNextHandle = m.predictHandle 0) ∧
    (∀ (T : Type) (m : SparseHandleMap T) (n j : Nat), m.Inv →
      m.available[n]? = some j →
      ∃ oh oo, m.values[j]? = some (oh, oo) ∧
        m.predictHandle n = some (bumpHandle oh)) ∧
    (∀ (T : Type) (m : SparseHandleMap T) (n : Nat), m.available[n]? = none →
      m.values.length + (n - m.available.length) ≤ u32Max →
      m.predictHandle n = some (Handle.fromParts 0
        (m.values.length + (n - m.available.length)))) ∧
    (∀ (T : Type) (m : SparseHandleMap T) (vs : List T) (m' : SparseHandleMap T) (v : T),
      m.Inv → m.insertSeq vs = some m' →
      m.predictHandle vs.length = (m'.insert v).map Prod.fst) := by
  refine ⟨?_, ?_, ?_, ?_⟩
  · intro T m
    rfl
  · intro T m n j hInv hn
    have hjlt : j < m.values.length := hInv.2.2.1 j (List.getElem?_mem hn)
    obtain ⟨oh, oo, hj⟩ : ∃ oh oo, m.values[j]? = some (oh, oo) :=
      ⟨(m.values[j]).1, (m.values[j]).2, by rw [List.getElem?_eq_getElem hjlt]⟩
    refine ⟨oh, oo, hj, ?_⟩
    unfold SparseHandleMap.predictHandle
    simp only [hn, hj, bumpHandle]
  · intro T m n hn hle
    unfold SparseHandleMap.predictHandle
    rw [hn]
    simp [hle]
  · intro T m vs m' v hInv hseq
    exact SparseHandleMap.predict_insertSeq vs m m' hInv hseq v

/-- Sparse map after inserting `1` and `2` into a fresh map. -/
def exSparse12 : SparseHandleMap Nat := ⟨[(⟨0⟩, some 1), (⟨1⟩, some 2)], []⟩

theorem claim_C6_witness :
    (SparseHandleMap.Inv (SparseHandleMap.new : SparseHandleMap Nat) ∧
      (SparseHandleMap.new : SparseHandleMap Nat).insertSeq [1, 2] = some exSparse12 ∧
      (SparseHandleMap.new : SparseHandleMap Nat).predictHandle ([1, 2] : List Nat).length
        = (exSparse12.insert 3).map Prod.fst) ∧
    (SparseHandleMap.Inv exSparse2 ∧ exSparse2.available[0]? = some 0 ∧
      (∃ oh oo, exSparse2.values[0]? = some (oh, oo) ∧
        exSparse2.predictHandle 0 = some (bumpHandle oh))) :=
  ⟨⟨SparseHandleMap.inv_new, by decide,
    claim_C6_predict.2.2.2 Nat SparseHandleMap.new [1, 2] exSparse12 3
      SparseHandleMap.inv_new (by decide)⟩,
   ⟨by decide, rfl,
    claim_C6_predict.2.1 Nat exSparse2 0 0 (by decide) rfl⟩⟩

/-- C7: every reachable `SparseHandleMap` stores at slot `i` a handle
whose index is `i`; every free-list entry is an in-bounds index of a slot
with no value and the free list has no duplicates; `len` is the slot
count minus the free-list length, and equals the number of inserts minus
the number of successful removes - likewise for `DenseHandleMap::len` -
so a fresh map of either kind has `len = 0`. -/
theorem claim_C7_length_invariants :
    (∀ (T : Type) (m : SparseHandleMap T) (ins rem : Nat),
      SparseHandleMap.Reach m ins rem →
      (∀ i, (hi : i < m.values.length) → (m.values[i]).1.uindex = i) ∧
      (∀ j ∈ m.available, j < m.values.length ∧
        (m.values[j]?).map (fun s => s.2.isNone) = some true) ∧
      m.available.Nodup ∧
      m.len = m.values.length - m.available.length ∧
      m.len + rem = ins) ∧
    (∀ (T : Type) (m : DenseHandleMap T) (ins rem : Nat),
      DenseHandleMap.Reach m ins rem → m.len + rem = ins) ∧
    (∀ T : Type, (SparseHandleMap.new : SparseHandleMap T).len = 0 ∧
      (DenseHandleMap.new : DenseHandleMap T).len = 0) := by
  refine ⟨?_, ?_, ?_⟩
  · intro T m ins rem hr
    obtain ⟨⟨hlen, hidx, hbound, hempty, hnodup, hcount⟩, hacc⟩ :=
      SparseHandleMap.reach_inv_len hr
    exact ⟨hidx, fun j hj => ⟨hbound j hj, hempty j hj⟩, hnodup, rfl, hacc⟩
  · intro T m ins rem hr
    exact (DenseHandleMap.dense_reach_inv_len hr).2
  · intro T
    exact ⟨rfl, rfl⟩

theorem claim_C7_witness :
    SparseHandleMap.Reach exSparse1 1 0 ∧ DenseHandleMap.Reach exDense3 3 0 ∧
    ((∀ i, (hi : i < exSparse1.values.length) → (exSparse1.values[i]).1.uindex = i) ∧
      (∀ j ∈ exSparse1.available, j < exSparse1.values.length ∧
        (exSparse1.values[j]?).map (fun s => s.2.isNone) = some true) ∧
      exSparse1.available.Nodup ∧
      exSparse1.len = exSparse1.values.length - exSparse1.available.length ∧
      exSparse1.len + 0 = 1) ∧
    exDense3.len + 0 = 3 := by
  have hr1 : SparseHandleMap.Reach exSparse1 1 0 :=
    SparseHandleMap.Reach.insert SparseHandleMap.Reach.new
      (show (SparseHandleMap.new : SparseHandleMap Nat).insert 42
        = some (⟨0⟩, exSparse1) from by decide)
  exact ⟨hr1, exDense3_reach,
    claim_C7_length_invariants.1 Nat exSparse1 1 0 hr1,
    claim_C7_length_invariants.2.1 Nat exDense3 3 0 exDense3_reach⟩

/-- C8: sparse iteration yields exactly the live `(handle, value)` pairs
in slot-array order (the sequence of live slots), and the handle / value
iterators are exactly the first and second projections of that same
sequence; in this pure embedding each call denotes the same finite list
and cannot mutate the map. -/
theorem claim_C8_iteration :
    ∀ (T : Type) (m : SparseHandleMap T),
      (∀ (h : Handle) (v : T), (h, v) ∈ m.iterList ↔
        ∃ i : Nat, m.values[i]? = some (h, some v)) ∧
      m.handlesList = m.iterList.map Prod.fst ∧
      m.valuesList = m.iterList.map Prod.snd ∧
      (m.iterList.map fun p => (p.1, some p.2)) = m.values.filter fun s => s.2.isSome := by
  intro T m
  exact ⟨fun h v => SparseHandleMap.mem_iterList m h v,
    handles_proj_aux m.values, values_proj_aux m.values, iter_filter_aux m.values⟩

/-- C9: the bracket-indexing accessors are `get`/`get_mut` followed by
`expect`: they fail (panic) exactly when the `get` family returns `None`
and otherwise return the very same value, so the fail-fast channel and
the recoverable-`None` channel always agree on which handles are valid. -/
theorem claim_C9_index_panics :
    (∀ (T : Type) (m : SparseHandleMap T) (h : Handle),
      (m.indexOp h = Except.error () ↔ m.get h = none) ∧
      (∀ v, m.indexOp h = Except.ok v ↔ m.get h = some v) ∧
      (m.indexMutOp h = Except.error () ↔ m.getMut h = none) ∧
      (∀ v, m.indexMutOp h = Except.ok v ↔ m.getMut h = some v)) ∧
    (∀ (T : Type) (m : DenseHandleMap T) (h : Handle),
      (m.indexOp h = Except.error () ↔ m.get h = none) ∧
      (∀ v, m.indexOp h = Except.ok v ↔ m.get h = some v) ∧
      (m.indexMutOp h = Except.error () ↔ m.getMut h = none) ∧
      (∀ v, m.indexMutOp h = Except.ok v ↔ m.getMut h = some v)) := by
  constructor
  · intro T m h
    exact ⟨expectValid_error_iff _, fun v => expectValid_ok_iff _ v,
      expectValid_error_iff _, fun v => expectValid_ok_iff _ v⟩
  · intro T m h
    exact ⟨expectValid_error_iff _, fun v => expectValid_ok_iff _ v,
      expectValid_error_iff _, fun v => expectValid_ok_iff _ v⟩

/-- C10: a `remove` that returns `None` leaves the map exactly as it was
- in particular a repeated remove of the same handle neither changes any
slot nor appends the slot index to the free list again, so failed
removals can never introduce duplicate free-list entries. -/
theorem claim_C10_failed_remove_identity :
    ∀ (T : Type) (m : SparseHandleMap T) (h : Handle),
      (m.remove h).1 = none →
      (m.remove h).2 = m ∧ (m.remove h).2.available = m.available := by
  intro T m h hmiss
  have := SparseHandleMap.remove_miss_eq m h hmiss
  exact ⟨this, by rw [this]⟩

theorem claim_C10_witness :
    ((exSparse2.remove ⟨0⟩).1 = none) ∧
    ((exSparse2.remove ⟨0⟩).2 = exSparse2 ∧
      (exSparse2.remove ⟨0⟩).2.available = exSparse2.available) :=
  ⟨by decide, claim_C10_failed_remove_identity Nat exSparse2 ⟨0⟩ (by decide)⟩
